import Mathlib

/-!
# Ass1j.c — the lexical analyser `analyze`

A shallow embedding of `src/Ass1j.c`.

* A C `char` is a Lean `Char`; the `<ctype.h>` predicates are those of the "C" locale
  (ASCII), false on every other character.
* The buffer `str` is the list of the characters stored in the array before its final
  terminating NUL; `analyze` appends that terminator itself.  The cursor `i` is kept as
  the part of the array that starts at `str[i]`: the list `c :: cs` means `str[i] = c`,
  and the empty list means that `i` has moved past the final terminator, where a read
  of `str[i]` is outside the array.
* `yytext[0 .. j)` is the list of the characters copied so far; a write at an index
  `j ≥ MAX_LEN` is outside `yytext`.
* `print_token` is the only sink: every call is recorded as a `Token`, whose text is the
  C string found in `yytext` (the characters before the first NUL).
* `yylineno` is a natural number (the `int` is assumed not to overflow).
-/

namespace Ass1j

/-- The size of the lexeme buffer `yytext`. -/
def MAX_LEN : Nat := 100

/-- The enumeration `TokenType`, in the order of the source. -/
inductive TokenType
  | TOKEN_EOF
  | TOKEN_IDENTIFIER
  | TOKEN_INTEGER_CONSTANT
  | TOKEN_FLOAT_CONSTANT
  | TOKEN_STRING_LITERAL
  | TOKEN_CHARACTER_LITERAL
  | TOKEN_RESERVED_WORD
  | TOKEN_PLUS | TOKEN_MINUS | TOKEN_MULTIPLY | TOKEN_DIVIDE | TOKEN_MODULUS
  | TOKEN_INCREMENT | TOKEN_DECREMENT
  | TOKEN_EQUAL | TOKEN_NOT_EQUAL | TOKEN_LESS_THAN | TOKEN_LESS_EQUAL
  | TOKEN_GREATER_THAN | TOKEN_GREATER_EQUAL
  | TOKEN_LOGICAL_AND | TOKEN_LOGICAL_OR | TOKEN_LOGICAL_NOT
  | TOKEN_BITWISE_AND | TOKEN_BITWISE_OR | TOKEN_BITWISE_XOR
  | TOKEN_BITWISE_NOT | TOKEN_LEFT_SHIFT | TOKEN_RIGHT_SHIFT
  | TOKEN_ASSIGN | TOKEN_PLUS_ASSIGN | TOKEN_MINUS_ASSIGN | TOKEN_MUL_ASSIGN
  | TOKEN_DIV_ASSIGN | TOKEN_MOD_ASSIGN | TOKEN_AND_ASSIGN | TOKEN_OR_ASSIGN
  | TOKEN_XOR_ASSIGN | TOKEN_LSHIFT_ASSIGN | TOKEN_RSHIFT_ASSIGN
  | TOKEN_LPAREN | TOKEN_RPAREN | TOKEN_LBRACE | TOKEN_RBRACE
  | TOKEN_LBRACKET | TOKEN_RBRACKET
  | TOKEN_SEMICOLON | TOKEN_COMMA | TOKEN_COLON | TOKEN_DOT
  | TOKEN_QUESTION | TOKEN_BACKSLASH | TOKEN_PREPROCESSOR
  | TOKEN_ERROR
  deriving DecidableEq

open TokenType

/-- The NUL character that terminates a C string. -/
def NUL : Char := Char.ofNat 0

/-- The array `reserved_words`, without its closing `NULL` entry. -/
def reserved_words : List String :=
  ["int", "float", "char", "double", "void", "short", "long", "signed", "unsigned",
   "if", "else", "while", "for", "do", "switch", "case", "default", "break",
   "continue", "return", "goto", "sizeof", "typedef", "struct", "union", "enum",
   "const", "volatile", "extern", "static", "auto", "register"]

/-- `isspace` of the "C" locale: space, `\t`, `\n`, `\v`, `\f`, `\r`. -/
def isspace (c : Char) : Bool :=
  c = ' ' ∨ c = '\t' ∨ c = '\n' ∨ c = Char.ofNat 11 ∨ c = Char.ofNat 12 ∨ c = '\r'

/-- `isdigit`: the ten decimal digits. -/
def isdigit (c : Char) : Bool :=
  48 ≤ c.toNat ∧ c.toNat ≤ 57

/-- `isalpha` of the "C" locale: `A`..`Z` and `a`..`z`. -/
def isalpha (c : Char) : Bool :=
  (65 ≤ c.toNat ∧ c.toNat ≤ 90) ∨ (97 ≤ c.toNat ∧ c.toNat ≤ 122)

/-- `isalnum`: a letter or a digit. -/
def isalnum (c : Char) : Bool :=
  isalpha c || isdigit c

/-- The C string stored in an array of characters: what comes before the first NUL. -/
def cstr (a : List Char) : List Char :=
  a.takeWhile (fun c => c != NUL)

/-- `strcmp(a, b) == 0` for the C strings stored in `a` and in the literal `b`. -/
def streq (a : List Char) (b : String) : Bool :=
  cstr a == b.toList

/-- `strchr(s, c) != NULL`: the terminating NUL of `s` counts as part of the string,
so the NUL character is always found. -/
def strchr (s : String) (c : Char) : Bool :=
  (s.toList ++ [NUL]).contains c

/-- The function `is_reserved_word`: `strcmp` against every entry of the table. -/
def is_reserved_word (str : List Char) : Bool :=
  reserved_words.any (fun w => streq str w)

/-- The function `is_operator_char`. -/
def is_operator_char (c : Char) : Bool :=
  strchr "+-*/%<>=!&|^~" c

/-- One call of `print_token`. -/
structure Token where
  type : TokenType
  text : List Char
  deriving DecidableEq

/-- What `print_token(type, yytext)` receives: the type and the C string in `yytext`. -/
def print_token (type : TokenType) (yytext : List Char) : Token :=
  ⟨type, cstr yytext⟩

/-- The two ways in which the scan can leave its arrays. -/
inductive Fault
  | readPastEnd
  | yytextOverflow
  deriving DecidableEq

/-- A read of `str[i]`: outside the array once the cursor has passed the terminator. -/
def rd (str : List Char) : Except Fault Char :=
  match str with
  | [] => .error .readPastEnd
  | c :: _ => .ok c

/-- The statement `yytext[j++] = str[i++];`. -/
def copy (yytext str : List Char) : Except Fault (List Char × List Char) :=
  match str with
  | [] => .error .readPastEnd
  | c :: cs =>
    if yytext.length < MAX_LEN then .ok (yytext ++ [c], cs) else .error .yytextOverflow

/-- The loop `while (p(str[i])) yytext[j++] = str[i++];`. -/
def copyWhile (p : Char → Bool) :
    List Char → List Char → Except Fault (List Char × List Char)
  | _, [] => .error .readPastEnd
  | yytext, c :: cs =>
    if p c then
      if yytext.length < MAX_LEN then copyWhile p (yytext ++ [c]) cs
      else .error .yytextOverflow
    else .ok (yytext, c :: cs)

/-- The statement `yytext[j] = '\0'; yyleng = j;` that closes a lexeme. -/
def terminate (yytext : List Char) : Except Fault Unit :=
  if yytext.length < MAX_LEN then .ok () else .error .yytextOverflow

/-- Line comment, after `i += 2`: `while (str[i] != '\0' && str[i] != '\n') i++;`. -/
def skipLine : List Char → Except Fault (List Char)
  | [] => .error .readPastEnd
  | c :: cs => if c ≠ NUL ∧ c ≠ '\n' then skipLine cs else .ok (c :: cs)

/-- Block comment, after `i += 2`: the loop that runs up to the NUL or to the first
`*` that is followed by `/`, counting the newlines it passes. -/
def skipBlock : List Char → Nat → Except Fault (List Char × Nat)
  | [], _ => .error .readPastEnd
  | c :: cs, yylineno =>
    if c ≠ NUL ∧ ¬ (c = '*' ∧ cs.head? = some '/') then
      skipBlock cs (if c = '\n' then yylineno + 1 else yylineno)
    else .ok (c :: cs, yylineno)

/-- The block comment step after its test: skip `/*`, run the loop, then
`if (str[i] != '\0') i += 2;`. -/
def block_comment (cs : List Char) (yylineno : Nat) : Except Fault (List Char × Nat) := do
  let (m, ln) ← skipBlock (cs.drop 1) yylineno
  let c ← rd m
  pure (if c ≠ NUL then m.drop 2 else m, ln)

/-- The identifier step after its test. -/
def identifier (str : List Char) : Except Fault (Token × List Char) := do
  let (y, m) ← copyWhile (fun c => isalnum c || c = '_') [] str
  terminate y
  pure (print_token (if is_reserved_word y then TOKEN_RESERVED_WORD else TOKEN_IDENTIFIER) y, m)

/-- Number step, `if (str[i] == '.') { has_dot = 1; ... }` and the first run of digits. -/
def numLead (str : List Char) : Except Fault (Bool × List Char × List Char) := do
  let c ← rd str
  let (has_dot, y, m) ←
    (if c = '.' then (copy [] str).map (fun r => (true, r.1, r.2))
     else pure (false, [], str))
  let (y, m) ← copyWhile isdigit y m
  pure (has_dot, y, m)

/-- Number step, `if (str[i] == '.' && !has_dot) { ... }`. -/
def numFrac (has_dot : Bool) (yytext str : List Char) :
    Except Fault (Bool × List Char × List Char) := do
  let c ← rd str
  if c = '.' ∧ has_dot = false then
    let (y, m) ← copy yytext str
    let (y, m) ← copyWhile isdigit y m
    pure (true, y, m)
  else pure (has_dot, yytext, str)

/-- Number step, `if ((str[i] == 'e' || str[i] == 'E')) { ... }`. -/
def numExp (yytext str : List Char) : Except Fault (Bool × List Char × List Char) := do
  let c ← rd str
  if c = 'e' ∨ c = 'E' then
    let (y, m) ← copy yytext str
    let s ← rd m
    let (y, m) ← (if s = '+' ∨ s = '-' then copy y m else pure (y, m))
    let (y, m) ← copyWhile isdigit y m
    pure (true, y, m)
  else pure (false, yytext, str)

/-- Number step, `if (strchr("fFuUlL", str[i])) { yytext[j++] = str[i++]; }`. -/
def numSuffix (yytext str : List Char) : Except Fault (List Char × List Char) := do
  let c ← rd str
  if strchr "fFuUlL" c then copy yytext str else pure (yytext, str)

/-- The number step after its test. -/
def number (str : List Char) : Except Fault (Token × List Char) := do
  let (has_dot, y, m) ← numLead str
  let (has_dot, y, m) ← numFrac has_dot y m
  let (has_exp, y, m) ← numExp y m
  let (y, m) ← numSuffix y m
  terminate y
  pure (print_token
    (if has_dot ∨ has_exp then TOKEN_FLOAT_CONSTANT else TOKEN_INTEGER_CONSTANT) y, m)

/-- String step, the loop
`while (str[i] && str[i] != '"') { if (str[i] == '\\') copy; copy; }`. -/
def stringBody : List Char → List Char → Except Fault (List Char × List Char)
  | _, [] => .error .readPastEnd
  | yytext, c :: cs =>
    if c ≠ NUL ∧ c ≠ '"' then
      if c = '\\' then
        if yytext.length < MAX_LEN then
          match cs with
          | [] => .error .readPastEnd
          | d :: ds =>
            if yytext.length + 1 < MAX_LEN then stringBody (yytext ++ [c, d]) ds
            else .error .yytextOverflow
        else .error .yytextOverflow
      else if yytext.length < MAX_LEN then stringBody (yytext ++ [c]) cs
      else .error .yytextOverflow
    else .ok (yytext, c :: cs)

/-- The string step after its test; `yytext[j - 1]` is the last character copied. -/
def string_literal (str : List Char) : Except Fault (Token × List Char) := do
  let (y, m) ← copy [] str
  let (y, m) ← stringBody y m
  let c ← rd m
  let (y, m) ← (if c = '"' then copy y m else pure (y, m))
  terminate y
  pure (print_token
    (if y.getLast? = some '"' then TOKEN_STRING_LITERAL else TOKEN_ERROR) y, m)

/-- The character step after its test. -/
def character_literal (str : List Char) : Except Fault (Token × List Char) := do
  let (y, m) ← copy [] str
  let c ← rd m
  let (y, m) ← (if c = '\\' then copy y m else pure (y, m))
  let (y, m) ← copy y m
  let c ← rd m
  let (y, m) ← (if c = '\'' then copy y m else pure (y, m))
  terminate y
  pure (print_token
    (if y.getLast? = some '\'' then TOKEN_CHARACTER_LITERAL else TOKEN_ERROR) y, m)

/-- The `MATCH(op, tok)` lines, in the order of the source. -/
def operator_table : List (String × TokenType) :=
  [("++", TOKEN_INCREMENT), ("--", TOKEN_DECREMENT),
   ("==", TOKEN_EQUAL), ("!=", TOKEN_NOT_EQUAL),
   ("<=", TOKEN_LESS_EQUAL), (">=", TOKEN_GREATER_EQUAL),
   ("&&", TOKEN_LOGICAL_AND), ("||", TOKEN_LOGICAL_OR),
   ("+=", TOKEN_PLUS_ASSIGN), ("-=", TOKEN_MINUS_ASSIGN),
   ("*=", TOKEN_MUL_ASSIGN), ("/=", TOKEN_DIV_ASSIGN),
   ("%=", TOKEN_MOD_ASSIGN), ("&=", TOKEN_AND_ASSIGN),
   ("|=", TOKEN_OR_ASSIGN), ("^=", TOKEN_XOR_ASSIGN),
   ("<<=", TOKEN_LSHIFT_ASSIGN), (">>=", TOKEN_RSHIFT_ASSIGN),
   ("<<", TOKEN_LEFT_SHIFT), (">>", TOKEN_RIGHT_SHIFT),
   ("+", TOKEN_PLUS), ("-", TOKEN_MINUS),
   ("*", TOKEN_MULTIPLY), ("/", TOKEN_DIVIDE),
   ("%", TOKEN_MODULUS), ("=", TOKEN_ASSIGN),
   ("<", TOKEN_LESS_THAN), (">", TOKEN_GREATER_THAN),
   ("&", TOKEN_BITWISE_AND), ("|", TOKEN_BITWISE_OR),
   ("^", TOKEN_BITWISE_XOR), ("~", TOKEN_BITWISE_NOT),
   ("!", TOKEN_LOGICAL_NOT)]

/-- The `if (0) {} else if (strcmp(yytext, op) == 0) type = tok ...` chain: the first
line whose spelling equals the C string in `yytext`, and `TOKEN_ERROR` when none does. -/
def matchOperator (yytext : List Char) : TokenType :=
  match operator_table.find? (fun e => streq yytext e.1) with
  | some e => e.2
  | none => TOKEN_ERROR

/-- Operator step, the loop `while (is_operator_char(str[i]) && j < 3) copy;`. -/
def opRun : List Char → List Char → Except Fault (List Char × List Char)
  | _, [] => .error .readPastEnd
  | yytext, c :: cs =>
    if is_operator_char c ∧ yytext.length < 3 then opRun (yytext ++ [c]) cs
    else .ok (yytext, c :: cs)

/-- Operator step, the back-off loop `while (j > 0) { yytext[j] = '\0'; ...; j--; i--; }`
and the `if (j == 0)` that follows it, on the characters `yytext` copied by the step.
The result is the token printed and the final value of `j`. -/
def backoff (yytext : List Char) : Nat → Token × Nat
  | 0 => (print_token TOKEN_ERROR (yytext.take 1), 0)
  | j + 1 =>
    if matchOperator (yytext.take (j + 1)) ≠ TOKEN_ERROR then
      (print_token (matchOperator (yytext.take (j + 1))) (yytext.take (j + 1)), j + 1)
    else backoff yytext j

/-- The operator step after `is_operator_char(yytext[0])`.  Within the step `i` and `j`
move together, so the cursor ends `j` characters after the start of the step. -/
def operator (c : Char) (cs : List Char) : Except Fault (Token × List Char) := do
  let (y, _) ← opRun [c] cs
  let (tok, j) := backoff y y.length
  pure (tok, (c :: cs).drop j)

/-- The `switch (str[i - 1])` of the punctuation step. -/
def punctuation (c : Char) : TokenType :=
  if c = '(' then TOKEN_LPAREN
  else if c = ')' then TOKEN_RPAREN
  else if c = '{' then TOKEN_LBRACE
  else if c = '}' then TOKEN_RBRACE
  else if c = '[' then TOKEN_LBRACKET
  else if c = ']' then TOKEN_RBRACKET
  else if c = ';' then TOKEN_SEMICOLON
  else if c = ',' then TOKEN_COMMA
  else if c = ':' then TOKEN_COLON
  else if c = '.' then TOKEN_DOT
  else if c = '?' then TOKEN_QUESTION
  else if c = '\\' then TOKEN_BACKSLASH
  else if c = '#' then TOKEN_PREPROCESSOR
  else TOKEN_ERROR

/-- What one iteration of the main loop leaves: the token it printed, if any, the
array from the new cursor on, and the line counter. -/
structure Step where
  token : Option Token
  str : List Char
  yylineno : Nat

/-- One iteration of the `while (str[i] != '\0')` loop with `str[i] = c` and
`str[i + 1 ..] = cs`.  (`str[i + 1]` is read only where `str[i]` is not NUL.) -/
def step (c : Char) (cs : List Char) (yylineno : Nat) : Except Fault Step :=
  if isspace c then
    .ok ⟨none, cs, if c = '\n' then yylineno + 1 else yylineno⟩
  else if c = '/' ∧ cs.head? = some '/' then
    (skipLine (cs.drop 1)).map (fun m => ⟨none, m, yylineno⟩)
  else if c = '/' ∧ cs.head? = some '*' then
    (block_comment cs yylineno).map (fun r => ⟨none, r.1, r.2⟩)
  else if isalpha c ∨ c = '_' then
    (identifier (c :: cs)).map (fun r => ⟨some r.1, r.2, yylineno⟩)
  else if isdigit c ∨ (c = '.' ∧ cs.head?.any isdigit) then
    (number (c :: cs)).map (fun r => ⟨some r.1, r.2, yylineno⟩)
  else if c = '"' then
    (string_literal (c :: cs)).map (fun r => ⟨some r.1, r.2, yylineno⟩)
  else if c = '\'' then
    (character_literal (c :: cs)).map (fun r => ⟨some r.1, r.2, yylineno⟩)
  else if is_operator_char c then
    (operator c cs).map (fun r => ⟨some r.1, r.2, yylineno⟩)
  else if punctuation c ≠ TOKEN_ERROR then
    .ok ⟨some (print_token (punctuation c) [c]), cs, yylineno⟩
  else .ok ⟨none, cs, yylineno⟩

/-- How a run of `analyze` ends. -/
inductive Status
  | finished
  | fault (f : Fault)
  | outOfFuel
  deriving DecidableEq

/-- What a run of `analyze` has done: the calls of `print_token` in order, the final
`yylineno`, and how the run ended. -/
structure Outcome where
  tokens : List Token
  yylineno : Nat
  status : Status
  deriving DecidableEq

/-- The main loop of `analyze`, at most `fuel` iterations. -/
def loop : Nat → List Char → Nat → Outcome
  | 0, _, yylineno => ⟨[], yylineno, .outOfFuel⟩
  | _ + 1, [], yylineno => ⟨[], yylineno, .fault .readPastEnd⟩
  | fuel + 1, c :: cs, yylineno =>
    if c = NUL then ⟨[], yylineno, .finished⟩
    else
      match step c cs yylineno with
      | .error f => ⟨[], yylineno, .fault f⟩
      | .ok s =>
        let r := loop fuel s.str s.yylineno
        ⟨s.token.toList ++ r.tokens, r.yylineno, r.status⟩

/-- The function `analyze(str)`, started with the line counter at `yylineno`: the main
loop on the array `str` followed by its terminator, with one iteration for every character
of the array and two to spare. -/
def analyze (str : List Char) (yylineno : Nat) : Outcome :=
  loop (str.length + 2) (str ++ [NUL]) yylineno

/-! ## Specification-side vocabulary -/

/-- The test of the identifier loop, `isalnum(str[i]) || str[i] == '_'`. -/
def identChar (c : Char) : Bool := isalnum c || c = '_'


/-- The keyword list of the specification, section 4.2, as lists of characters. -/
def specKeywords : List (List Char) :=
  ["int", "float", "char", "double", "void", "short", "long", "signed", "unsigned",
   "if", "else", "while", "for", "do", "switch", "case", "default", "break",
   "continue", "return", "goto", "sizeof", "typedef", "struct", "union", "enum",
   "const", "volatile", "extern", "static", "auto", "register"].map String.toList

/-- One element of the body of a string literal: a plain character or an escape pair,
a backslash followed by the character `c`. -/
inductive StrItem
  | plain (c : Char)
  | escape (c : Char)

/-- A plain character is no double quote, no backslash and no NUL; the character of an
escape pair is not NUL. -/
def StrItem.valid : StrItem → Bool
  | .plain c => c ≠ '"' ∧ c ≠ '\\' ∧ c ≠ NUL
  | .escape c => c ≠ NUL

/-- The characters an element stands for in the buffer. -/
def StrItem.chars : StrItem → List Char
  | .plain c => [c]
  | .escape c => ['\\', c]

/-- The characters of a sequence of elements. -/
def bodyChars : List StrItem → List Char
  | [] => []
  | it :: its => it.chars ++ bodyChars its

/-- One element of a buffer that holds no token: a whitespace character, a line comment
`//body`, a block comment `/*body*/`, or a block comment `/*body` that is never closed. -/
inductive Blank
  | space (c : Char)
  | lineComment (body : List Char)
  | blockComment (body : List Char)
  | openComment (body : List Char)

/-- The characters an element stands for in the buffer. -/
def Blank.chars : Blank → List Char
  | .space c => [c]
  | .lineComment body => '/' :: '/' :: body
  | .blockComment body => '/' :: '*' :: (body ++ ['*', '/'])
  | .openComment body => '/' :: '*' :: body

/-- The characters of a sequence of elements. -/
def blankChars : List Blank → List Char
  | [] => []
  | b :: bs => b.chars ++ blankChars bs

/-- Whether the text holds a `*` directly followed by a `/`. -/
def hasCloser : List Char → Bool
  | [] => false
  | c :: cs => (c = '*' ∧ cs.head? = some '/') || hasCloser cs

/-- Whether the sequence is empty or starts with the newline character. -/
def startsLine : List Blank → Bool
  | [] => true
  | .space c :: _ => c = '\n'
  | _ :: _ => false

/-- The sequences that are buffers: a whitespace character is one for `isspace`; a line
comment holds no newline and runs up to the next newline or to the end of the buffer; the
body of a block comment holds no `*/`, so the comment ends at the first `*/` that follows
its opening; a block comment that is never closed runs to the end of the buffer; and no
text holds the NUL character. -/
def blanksValid : List Blank → Bool
  | [] => true
  | .space c :: bs => isspace c && blanksValid bs
  | .lineComment body :: bs =>
    body.all (fun c => c ≠ '\n' ∧ c ≠ NUL) && startsLine bs && blanksValid bs
  | .blockComment body :: bs =>
    !hasCloser body && body.all (fun c => c ≠ NUL) && blanksValid bs
  | .openComment body :: bs =>
    !hasCloser body && body.all (fun c => c ≠ NUL) && bs.isEmpty

/-- The initialiser of the global line counter, `int yylineno = 1;`. -/
def yylineno_init : Nat := 1

/-- Two calls in a row in one program, `analyze(A); analyze(B);`.  The globals are set once,
when the program starts, and `analyze` does not reset them, so the second call starts with
the `yylineno` the first call left.  The result is what the second call does. -/
def analyze_after (A B : List Char) : Outcome :=
  analyze B (analyze A yylineno_init).yylineno

/-- The punctuation characters of the specification, section 4.4 step 9, each with the
kind it is assigned. -/
def specPunctuation : List (Char × TokenType) :=
  [('(', TOKEN_LPAREN), (')', TOKEN_RPAREN), ('{', TOKEN_LBRACE), ('}', TOKEN_RBRACE),
   ('[', TOKEN_LBRACKET), (']', TOKEN_RBRACKET), (';', TOKEN_SEMICOLON),
   (',', TOKEN_COMMA), (':', TOKEN_COLON), ('.', TOKEN_DOT), ('?', TOKEN_QUESTION),
   ('\\', TOKEN_BACKSLASH), ('#', TOKEN_PREPROCESSOR)]

/-- The texts lie in the buffer in the order of the list, each as one contiguous piece that
starts behind the end of the one before it. -/
def InOrder : List (List Char) → List Char → Prop
  | [], _ => True
  | t :: ts, b => ∃ pre post, b = pre ++ t ++ post ∧ InOrder ts post

/-! ## Characters and C strings -/

theorem ne_of_class {p : Char → Bool} {c d : Char} (hc : p c = true) (hd : p d = false) :
    c ≠ d := by
  rintro rfl
  simp [hc] at hd

theorem cstr_cons_of_ne {c : Char} (h : c ≠ NUL) (l : List Char) :
    cstr (c :: l) = c :: cstr l := by
  simp [cstr, h]

theorem cstr_eq_self {w : List Char} (h : ∀ c ∈ w, c ≠ NUL) : cstr w = w := by
  induction w with
  | nil => rfl
  | cons c w ih =>
    rw [cstr_cons_of_ne (h c (List.mem_cons_self _ _)),
      ih (fun d hd => h d (List.mem_cons_of_mem _ hd))]

theorem identChar_ne_NUL {c : Char} (h : identChar c = true) : c ≠ NUL :=
  ne_of_class h (by decide)

/-! ## The copy loops -/

theorem copyWhile_append (p : Char → Bool) (w : List Char) (d : Char) (r : List Char)
    (hw : ∀ c ∈ w, p c = true) (hd : p d = false) :
    ∀ y : List Char, y.length + w.length ≤ MAX_LEN →
      copyWhile p y (w ++ d :: r) = .ok (y ++ w, d :: r) := by
  induction w with
  | nil => intro y _; simp [copyWhile, hd]
  | cons c w ih =>
    intro y hy
    have hc : p c = true := hw c (List.mem_cons_self _ _)
    have hlt : y.length < MAX_LEN := by simp at hy; omega
    have := ih (fun e he => hw e (List.mem_cons_of_mem _ he)) (y ++ [c])
      (by simp at hy ⊢; omega)
    simp [copyWhile, hc, hlt, this]

/-! ## The main loop -/

theorem loop_NUL (fuel : Nat) (r : List Char) (ln : Nat) :
    loop (fuel + 1) (NUL :: r) ln = ⟨[], ln, .finished⟩ := by
  simp [loop]

theorem loop_step {fuel : Nat} {c : Char} {cs : List Char} {ln : Nat} {s : Step}
    (hc : c ≠ NUL) (hs : step c cs ln = .ok s) :
    loop (fuel + 1) (c :: cs) ln =
      ⟨s.token.toList ++ (loop fuel s.str s.yylineno).tokens,
        (loop fuel s.str s.yylineno).yylineno, (loop fuel s.str s.yylineno).status⟩ := by
  simp [loop, hc, hs]

/-! ## Identifiers and reserved words -/

theorem identStart_identChar {c : Char} (h : isalpha c = true ∨ c = '_') :
    identChar c = true := by
  rcases h with h | rfl
  · simp [identChar, isalnum, h]
  · decide

theorem isspace_of_identChar {c : Char} (h : identChar c = true) : isspace c = false := by
  have h1 := ne_of_class (d := ' ') h (by decide)
  have h2 := ne_of_class (d := '\t') h (by decide)
  have h3 := ne_of_class (d := '\n') h (by decide)
  have h4 := ne_of_class (d := Char.ofNat 11) h (by decide)
  have h5 := ne_of_class (d := Char.ofNat 12) h (by decide)
  have h6 := ne_of_class (d := '\r') h (by decide)
  simp [isspace, h1, h2, h3, h4, h5, h6]

theorem is_reserved_word_iff {w : List Char} (h : ∀ c ∈ w, c ≠ NUL) :
    is_reserved_word w = true ↔ w ∈ specKeywords := by
  simp only [is_reserved_word, streq, cstr_eq_self h, List.any_eq_true, beq_iff_eq,
    specKeywords, List.mem_map, reserved_words]
  constructor
  · rintro ⟨x, hx, rfl⟩; exact ⟨x, hx, rfl⟩
  · rintro ⟨x, hx, rfl⟩; exact ⟨x, hx, rfl⟩

theorem identifier_run (c : Char) (w : List Char) (d : Char) (r : List Char)
    (hc : isalpha c = true ∨ c = '_') (hw : ∀ e ∈ w, identChar e = true)
    (hd : identChar d = false) (hlen : (c :: w).length < MAX_LEN) :
    identifier (c :: (w ++ d :: r)) =
      .ok (⟨if c :: w ∈ specKeywords then TOKEN_RESERVED_WORD else TOKEN_IDENTIFIER, c :: w⟩,
        d :: r) := by
  have hall : ∀ e ∈ c :: w, identChar e = true := by
    intro e he
    rcases List.mem_cons.1 he with rfl | he
    · exact identStart_identChar hc
    · exact hw e he
  have hnul : ∀ e ∈ c :: w, e ≠ NUL := fun e he => identChar_ne_NUL (hall e he)
  have hcopy := copyWhile_append identChar (c :: w) d r hall hd []
    (by simpa using Nat.le_of_lt hlen)
  have hres : is_reserved_word (c :: w) = decide (c :: w ∈ specKeywords) := by
    rw [Bool.eq_iff_iff, is_reserved_word_iff hnul]; simp
  have hterm : terminate (c :: w) = .ok () := by
    simp only [terminate, hlen, if_true]
  have hcopy2 : copyWhile (fun c => isalnum c || decide (c = '_')) [] (c :: (w ++ d :: r)) =
      .ok (c :: w, d :: r) := by simpa [identChar] using hcopy
  simp only [identifier, hcopy2, bind, Except.bind, hterm, pure, Except.pure, print_token,
    cstr_eq_self hnul, hres]
  by_cases hk : c :: w ∈ specKeywords <;> simp [hk]

theorem identifier_step (c : Char) (w : List Char) (d : Char) (r : List Char) (ln : Nat)
    (hc : isalpha c = true ∨ c = '_') (hw : ∀ e ∈ w, identChar e = true)
    (hd : identChar d = false) (hlen : (c :: w).length < MAX_LEN) :
    step c (w ++ d :: r) ln =
      .ok ⟨some ⟨if c :: w ∈ specKeywords then TOKEN_RESERVED_WORD else TOKEN_IDENTIFIER,
        c :: w⟩, d :: r, ln⟩ := by
  have hic := identStart_identChar hc
  have hsp := isspace_of_identChar hic
  have hsl : c ≠ '/' := ne_of_class hic (by decide)
  have hc2 : (isalpha c = true ∨ c = '_') := hc
  simp [step, hsp, hsl, hc2, identifier_run c w d r hc hw hd hlen, Except.map]

/-- C1: a non-empty word of letters, digits and underscores that starts with a letter or
an underscore and fits the lexeme buffer is scanned as exactly one token whose lexeme is
the word; the token is RESERVED_WORD when the word is, case-sensitively, one of the keywords
of the specification and IDENTIFIER otherwise, the line counter is unchanged and the
scan stops at the terminator. -/
theorem C1_identifier_or_reserved_word (c : Char) (w : List Char) (ln : Nat)
    (hstart : isalpha c = true ∨ c = '_')
    (hrest : ∀ e ∈ w, isalnum e = true ∨ e = '_')
    (hfit : (c :: w).length < MAX_LEN) :
    analyze (c :: w) ln =
      ⟨[⟨if c :: w ∈ specKeywords then TOKEN_RESERVED_WORD else TOKEN_IDENTIFIER, c :: w⟩],
        ln, .finished⟩ := by
  have hw : ∀ e ∈ w, identChar e = true := by
    intro e he
    rcases hrest e he with h | rfl
    · simp [identChar, h]
    · decide
  have hs := identifier_step c w NUL [] ln hstart hw (by decide) hfit
  have hne : c ≠ NUL := identChar_ne_NUL (identStart_identChar hstart)
  have hl : analyze (c :: w) ln = loop (w.length + 2 + 1) (c :: (w ++ [NUL])) ln := by
    simp [analyze]
  rw [hl, loop_step hne hs, loop_NUL]
  rfl

/-- C1 at the keyword `while`, at the word `While` and at the word `_x1`. -/
theorem C1_identifier_or_reserved_word_witness :
    analyze "while".toList 1 = ⟨[⟨TOKEN_RESERVED_WORD, "while".toList⟩], 1, .finished⟩ ∧
    analyze "While".toList 1 = ⟨[⟨TOKEN_IDENTIFIER, "While".toList⟩], 1, .finished⟩ ∧
    analyze "_x1".toList 1 = ⟨[⟨TOKEN_IDENTIFIER, "_x1".toList⟩], 1, .finished⟩ :=
  ⟨C1_identifier_or_reserved_word 'w' "hile".toList 1 (by decide) (by decide) (by decide),
   C1_identifier_or_reserved_word 'W' "hile".toList 1 (by decide) (by decide) (by decide),
   C1_identifier_or_reserved_word '_' "x1".toList 1 (by decide) (by decide) (by decide)⟩

/-! ## Operators and numbers at the end of the buffer -/

/-- C2: `is_operator_char` accepts the NUL character, so on the buffer `<` the greedy loop
of the operator step copies the terminator and reads `str[2]`, outside the array, before any
token is printed; the same happens on the two-character spelling `<<`, while the
three-character spelling `<<=` is scanned as one LSHIFT_ASSIGN token.  When the array goes on
after the terminator (`<`, NUL, NUL, `x`), the scan of the C string `<` prints LESS_THAN and
then the IDENTIFIER `x` it found behind the terminator.  Followed by a blank, `<` is scanned
as the single token LESS_THAN. -/
theorem C2_operator_at_end_reads_past_terminator :
    is_operator_char NUL = true ∧
    analyze "<".toList 1 = ⟨[], 1, .fault .readPastEnd⟩ ∧
    analyze "<<".toList 1 = ⟨[], 1, .fault .readPastEnd⟩ ∧
    analyze "<<=".toList 1 = ⟨[⟨TOKEN_LSHIFT_ASSIGN, "<<=".toList⟩], 1, .finished⟩ ∧
    analyze ['<', NUL, NUL, 'x'] 1 =
      ⟨[⟨TOKEN_LESS_THAN, ['<']⟩, ⟨TOKEN_IDENTIFIER, ['x']⟩], 1, .finished⟩ ∧
    analyze "< ".toList 1 = ⟨[⟨TOKEN_LESS_THAN, ['<']⟩], 1, .finished⟩ := by
  refine ⟨by decide, by decide, by decide, by decide, by decide, by decide⟩

/-- C3: `strchr("fFuUlL", str[i])` finds the NUL character, so on the buffer `123` the
number step copies the terminator as if it were a suffix, prints INTEGER_CONSTANT `123`, and
the main loop then reads `str[4]`, outside the array; the buffers `123.45`, `.5` and `1e10`
behave the same way.  When the array goes on after the terminator (`1`, `2`, `3`, NUL, `x`),
the scan of the C string `123` prints two tokens.  Followed by a blank, `123` is scanned as the
single token INTEGER_CONSTANT. -/
theorem C3_number_at_end_reads_past_terminator :
    strchr "fFuUlL" NUL = true ∧
    analyze "123".toList 1 =
      ⟨[⟨TOKEN_INTEGER_CONSTANT, "123".toList⟩], 1, .fault .readPastEnd⟩ ∧
    analyze "123.45".toList 1 =
      ⟨[⟨TOKEN_FLOAT_CONSTANT, "123.45".toList⟩], 1, .fault .readPastEnd⟩ ∧
    analyze ".5".toList 1 =
      ⟨[⟨TOKEN_FLOAT_CONSTANT, ".5".toList⟩], 1, .fault .readPastEnd⟩ ∧
    analyze "1e10".toList 1 =
      ⟨[⟨TOKEN_FLOAT_CONSTANT, "1e10".toList⟩], 1, .fault .readPastEnd⟩ ∧
    analyze ['1', '2', '3', NUL, 'x'] 1 =
      ⟨[⟨TOKEN_INTEGER_CONSTANT, "123".toList⟩, ⟨TOKEN_IDENTIFIER, ['x']⟩], 1, .finished⟩ ∧
    analyze "123 ".toList 1 = ⟨[⟨TOKEN_INTEGER_CONSTANT, "123".toList⟩], 1, .finished⟩ := by
  refine ⟨by decide, by decide, by decide, by decide, by decide, by decide, by decide⟩

/-! ## String literals -/

theorem bodyChars_ne_NUL {items : List StrItem} (hv : ∀ it ∈ items, it.valid = true) :
    ∀ c ∈ bodyChars items, c ≠ NUL := by
  induction items with
  | nil => simp [bodyChars]
  | cons it its ih =>
    have hit := hv it (List.mem_cons_self _ _)
    have hrest := ih (fun x hx => hv x (List.mem_cons_of_mem _ hx))
    intro c hc
    simp only [bodyChars, List.mem_append] at hc
    rcases hc with hc | hc
    · cases it with
      | plain a =>
        simp [StrItem.valid] at hit
        simp [StrItem.chars] at hc
        rw [hc]; exact hit.2.2
      | escape a =>
        simp [StrItem.valid] at hit
        simp [StrItem.chars] at hc
        rcases hc with rfl | rfl
        · decide
        · exact hit
    · exact hrest c hc

theorem stringBody_stop (y : List Char) (c : Char) (cs : List Char)
    (h : c = NUL ∨ c = '"') : stringBody y (c :: cs) = .ok (y, c :: cs) := by
  rcases h with rfl | rfl <;> cases cs <;> simp [stringBody]

theorem stringBody_plain (y : List Char) (c : Char) (cs : List Char)
    (h1 : c ≠ NUL) (h2 : c ≠ '"') (h3 : c ≠ '\\') (hlt : y.length < MAX_LEN) :
    stringBody y (c :: cs) = stringBody (y ++ [c]) cs := by
  cases cs <;> simp [stringBody, h1, h2, h3, hlt]

theorem stringBody_escape (y : List Char) (d : Char) (ds : List Char)
    (hlt : y.length + 1 < MAX_LEN) :
    stringBody y ('\\' :: d :: ds) = stringBody (y ++ ['\\', d]) ds := by
  have hb : ('\\' : Char) ≠ NUL := by decide
  have hb2 : ('\\' : Char) ≠ '"' := by decide
  have hlt1 : y.length < MAX_LEN := by omega
  simp [stringBody, hb, hb2, hlt, hlt1]

theorem stringBody_items (q : Char) (r : List Char) (hq : q = NUL ∨ q = '"')
    (items : List StrItem) (hv : ∀ it ∈ items, it.valid = true) :
    ∀ y : List Char, y.length + (bodyChars items).length ≤ MAX_LEN →
      stringBody y (bodyChars items ++ q :: r) = .ok (y ++ bodyChars items, q :: r) := by
  induction items with
  | nil =>
    intro y _
    simp [bodyChars, stringBody_stop y q r hq]
  | cons it its ih =>
    intro y hy
    have hit := hv it (List.mem_cons_self _ _)
    have ih2 := ih (fun x hx => hv x (List.mem_cons_of_mem _ hx))
    cases it with
    | plain a =>
      simp [StrItem.valid] at hit
      obtain ⟨h1, h2, h3⟩ := hit
      simp only [bodyChars, StrItem.chars, List.length_append, List.length_cons,
        List.length_nil] at hy
      have hlt : y.length < MAX_LEN := by omega
      have := ih2 (y ++ [a]) (by simp; omega)
      simp [bodyChars, StrItem.chars, stringBody_plain y a _ h3 h1 h2 hlt, this]
    | escape a =>
      simp [StrItem.valid] at hit
      simp only [bodyChars, StrItem.chars, List.length_append, List.length_cons,
        List.length_nil] at hy
      have hlt2 : y.length + 1 < MAX_LEN := by omega
      have := ih2 (y ++ ['\\', a]) (by simp; omega)
      simp [bodyChars, StrItem.chars, stringBody_escape y a _ hlt2, this]

/-- C4: a double quote, a body made of plain characters and escape pairs, and a closing
double quote, together short enough for the lexeme buffer, are scanned as exactly one
STRING_LITERAL token whose lexeme is the whole buffer, escape pairs copied as they stand;
the line counter is unchanged and the scan ends at the terminator. -/
theorem C4_string_literal (items : List StrItem) (ln : Nat)
    (hvalid : ∀ it ∈ items, it.valid = true)
    (hfit : (bodyChars items).length + 2 < MAX_LEN) :
    analyze ('"' :: (bodyChars items ++ ['"'])) ln =
      ⟨[⟨TOKEN_STRING_LITERAL, '"' :: (bodyChars items ++ ['"'])⟩], ln, .finished⟩ := by
  have hbody := stringBody_items '"' [NUL] (Or.inr rfl) items hvalid ['"']
    (by simp; omega)
  have hnul : ∀ c ∈ '"' :: (bodyChars items ++ ['"']), c ≠ NUL := by
    intro c hc
    simp only [List.mem_cons, List.mem_append, List.mem_singleton, List.not_mem_nil,
      or_false] at hc
    rcases hc with rfl | hc | rfl
    · decide
    · exact bodyChars_ne_NUL hvalid c hc
    · decide
  have hstr : string_literal ('"' :: (bodyChars items ++ '"' :: [NUL])) =
      .ok (⟨TOKEN_STRING_LITERAL, '"' :: (bodyChars items ++ ['"'])⟩, [NUL]) := by
    have h0 : (0 : Nat) < MAX_LEN := by decide
    have h1 : (bodyChars items).length + 1 < MAX_LEN := by omega
    have h2 : (bodyChars items).length + 1 + 1 < MAX_LEN := by omega
    have hc := cstr_eq_self hnul
    have hlast : ('"' :: (bodyChars items ++ ['"'])).getLast? = some '"' := by
      rw [← List.cons_append, List.getLast?_concat]
    simp [string_literal, copy, bind, Except.bind, h0, hbody, rd, h1, h2, terminate, pure,
      Except.pure, print_token, hc, hlast]
  have hs : step '"' (bodyChars items ++ '"' :: [NUL]) ln =
      .ok ⟨some ⟨TOKEN_STRING_LITERAL, '"' :: (bodyChars items ++ ['"'])⟩, [NUL], ln⟩ := by
    have e1 : isspace '"' = false := by decide
    have e2 : ('"' : Char) ≠ '/' := by decide
    have e3 : isalpha '"' = false := by decide
    have e4 : isdigit '"' = false := by decide
    simp [step, e1, e2, e3, e4, hstr, Except.map]
  have hl : analyze ('"' :: (bodyChars items ++ ['"'])) ln =
      loop ((bodyChars items).length + 1 + 2 + 1) ('"' :: (bodyChars items ++ '"' :: [NUL])) ln := by
    simp [analyze]
  rw [hl, loop_step (by decide) hs, loop_NUL]
  rfl

/-- C4 at the buffer `"a\"b"`: the plain character `a`, the escape pair backslash-quote and
the plain character `b` between two double quotes. -/
theorem C4_string_literal_witness :
    analyze ['"', 'a', '\\', '"', 'b', '"'] 1 =
      ⟨[⟨TOKEN_STRING_LITERAL, ['"', 'a', '\\', '"', 'b', '"']⟩], 1, .finished⟩ :=
  C4_string_literal [.plain 'a', .escape '"', .plain 'b'] 1 (by decide) (by decide)

/-! ## Whitespace and comments -/

theorem skipLine_body (body : List Char) (d : Char) (r : List Char)
    (hb : ∀ c ∈ body, c ≠ '\n' ∧ c ≠ NUL) (hd : d = NUL ∨ d = '\n') :
    skipLine (body ++ d :: r) = .ok (d :: r) := by
  induction body with
  | nil => rcases hd with rfl | rfl <;> simp [skipLine]
  | cons c body ih =>
    have hc := hb c (List.mem_cons_self _ _)
    have := ih (fun e he => hb e (List.mem_cons_of_mem _ he))
    simp [skipLine, hc.1, hc.2, this]

theorem skipBlock_body (body : List Char) (t : List Char)
    (hb : ∀ c ∈ body, c ≠ NUL) (hc : hasCloser body = false)
    (ht : (∃ r, t = NUL :: r) ∨ (∃ r, t = '*' :: '/' :: r)) :
    ∀ ln : Nat, skipBlock (body ++ t) ln = .ok (t, ln + body.count '\n') := by
  induction body with
  | nil =>
    intro ln
    rcases ht with ⟨r, rfl⟩ | ⟨r, rfl⟩ <;> simp [skipBlock]
  | cons c body ih =>
    intro ln
    have hne : c ≠ NUL := hb c (List.mem_cons_self _ _)
    simp only [hasCloser, Bool.or_eq_false_iff, decide_eq_false_iff_not] at hc
    have ih2 := ih (fun e he => hb e (List.mem_cons_of_mem _ he)) hc.2
    have hnc : ¬ (c = '*' ∧ (body ++ t).head? = some '/') := by
      rintro ⟨h1, h2⟩
      apply hc.1
      refine ⟨h1, ?_⟩
      cases body with
      | nil =>
        rcases ht with ⟨r, rfl⟩ | ⟨r, rfl⟩
        · simp only [List.nil_append, List.head?_cons, Option.some.injEq] at h2
          exact absurd h2 (by decide)
        · simp only [List.nil_append, List.head?_cons, Option.some.injEq] at h2
          exact absurd h2 (by decide)
      | cons e body => simpa using h2
    rw [List.cons_append, skipBlock]
    simp only [hne, hnc, ne_eq, not_false_eq_true, and_self, if_true]
    rw [ih2]
    by_cases hn : c = '\n'
    · subst hn; simp; omega
    · have : ('\n' == c) = false := by simpa using fun h => hn h.symm
      simp [hn, List.count_cons, this]

theorem loop_skip {fuel : Nat} {c : Char} {cs m : List Char} {ln ln2 : Nat}
    (hc : c ≠ NUL) (hs : step c cs ln = .ok ⟨none, m, ln2⟩) :
    loop (fuel + 1) (c :: cs) ln = loop fuel m ln2 := by
  rw [loop_step hc hs]
  simp

theorem startsLine_chars {bs : List Blank} (h : startsLine bs = true) :
    ∃ d r, blankChars bs ++ [NUL] = d :: r ∧ (d = NUL ∨ d = '\n') := by
  cases bs with
  | nil => exact ⟨NUL, [], rfl, Or.inl rfl⟩
  | cons b bs =>
    cases b with
    | space c =>
      simp [startsLine] at h
      exact ⟨c, blankChars bs ++ [NUL], by simp [blankChars, Blank.chars], Or.inr h⟩
    | lineComment body => simp [startsLine] at h
    | blockComment body => simp [startsLine] at h
    | openComment body => simp [startsLine] at h

theorem step_space {c : Char} (h : isspace c = true) (cs : List Char) (ln : Nat) :
    step c cs ln = .ok ⟨none, cs, if c = '\n' then ln + 1 else ln⟩ := by
  simp [step, h]

theorem step_lineComment (body : List Char) (d : Char) (r : List Char) (ln : Nat)
    (hb : ∀ c ∈ body, c ≠ '\n' ∧ c ≠ NUL) (hd : d = NUL ∨ d = '\n') :
    step '/' ('/' :: (body ++ d :: r)) ln = .ok ⟨none, d :: r, ln⟩ := by
  have e1 : isspace '/' = false := by decide
  simp [step, e1, skipLine_body body d r hb hd, Except.map]

theorem step_blockComment (body : List Char) (r : List Char) (ln : Nat)
    (hb : ∀ c ∈ body, c ≠ NUL) (hc : hasCloser body = false) :
    step '/' ('*' :: (body ++ '*' :: '/' :: r)) ln =
      .ok ⟨none, r, ln + body.count '\n'⟩ := by
  have e1 : isspace '/' = false := by decide
  have e2 : ('*' : Char) ≠ '/' := by decide
  have e3 : ('*' : Char) ≠ NUL := by decide
  simp [step, e1, e2, e3, block_comment, skipBlock_body body _ hb hc (Or.inr ⟨r, rfl⟩),
    bind, Except.bind, rd, pure, Except.pure, Except.map]

theorem step_openComment (body : List Char) (r : List Char) (ln : Nat)
    (hb : ∀ c ∈ body, c ≠ NUL) (hc : hasCloser body = false) :
    step '/' ('*' :: (body ++ NUL :: r)) ln =
      .ok ⟨none, NUL :: r, ln + body.count '\n'⟩ := by
  have e1 : isspace '/' = false := by decide
  have e2 : ('*' : Char) ≠ '/' := by decide
  simp [step, e1, e2, block_comment, skipBlock_body body _ hb hc (Or.inl ⟨r, rfl⟩),
    bind, Except.bind, rd, pure, Except.pure, Except.map]

theorem loop_blanks (bs : List Blank) (hv : blanksValid bs = true) :
    ∀ fuel ln : Nat, (blankChars bs).length < fuel →
      loop fuel (blankChars bs ++ [NUL]) ln =
        ⟨[], ln + (blankChars bs).count '\n', .finished⟩ := by
  induction bs with
  | nil =>
    intro fuel ln hf
    obtain ⟨f, rfl⟩ : ∃ f, fuel = f + 1 := ⟨fuel - 1, by omega⟩
    simp [blankChars, loop_NUL]
  | cons b bs ih =>
    intro fuel ln hf
    obtain ⟨f, rfl⟩ : ∃ f, fuel = f + 1 := ⟨fuel - 1, by omega⟩
    have hsl : ('/' : Char) ≠ NUL := by decide
    cases b with
    | space c =>
      simp only [blanksValid, Bool.and_eq_true] at hv
      simp only [blankChars, Blank.chars, List.length_append, List.length_cons,
        List.length_nil] at hf
      have hc : c ≠ NUL := ne_of_class hv.1 (by decide)
      have := ih hv.2 f (if c = '\n' then ln + 1 else ln) (by omega)
      simp only [blankChars, Blank.chars, List.singleton_append, List.cons_append,
        List.nil_append]
      rw [loop_skip hc (step_space hv.1 _ ln), this]
      by_cases hn : c = '\n'
      · subst hn; simp; omega
      · have : ('\n' == c) = false := by simpa using fun h => hn h.symm
        simp [hn, List.count_cons, this]
    | lineComment body =>
      simp only [blanksValid, Bool.and_eq_true, List.all_eq_true, decide_eq_true_eq] at hv
      obtain ⟨⟨hb, hst⟩, hrest⟩ := hv
      obtain ⟨d, r, hdr, hd⟩ := startsLine_chars hst
      simp only [blankChars, Blank.chars, List.length_append, List.length_cons] at hf
      have := ih hrest f ln (by omega)
      have hcount : body.count '\n' = 0 :=
        List.count_eq_zero.2 (fun h => (hb _ h).1 rfl)
      simp only [blankChars, Blank.chars, List.cons_append, List.append_assoc]
      rw [hdr, loop_skip hsl (step_lineComment body d r ln hb hd), ← hdr, this]
      simp [List.count_cons, hcount]
    | blockComment body =>
      simp only [blanksValid, Bool.and_eq_true, List.all_eq_true, decide_eq_true_eq,
        Bool.not_eq_true'] at hv
      obtain ⟨⟨hc, hb⟩, hrest⟩ := hv
      simp only [blankChars, Blank.chars, List.length_append, List.length_cons] at hf
      have := ih hrest f (ln + body.count '\n') (by omega)
      simp only [blankChars, Blank.chars, List.cons_append, List.append_assoc,
        List.nil_append]
      rw [loop_skip hsl (step_blockComment body _ ln hb hc), this]
      simp [List.count_cons]; omega
    | openComment body =>
      simp only [blanksValid, Bool.and_eq_true, List.all_eq_true, decide_eq_true_eq,
        Bool.not_eq_true', List.isEmpty_iff] at hv
      obtain ⟨⟨hc, hb⟩, rfl⟩ := hv
      simp only [blankChars, Blank.chars, List.length_append, List.length_cons,
        List.length_nil] at hf
      obtain ⟨g, rfl⟩ : ∃ g, f = g + 1 := ⟨f - 1, by omega⟩
      simp only [blankChars, Blank.chars, List.cons_append, List.append_assoc,
        List.append_nil]
      rw [loop_skip hsl (step_openComment body [] ln hb hc), loop_NUL]
      simp [List.count_cons]

/-- C5: the buffer that is a lone double quote is scanned as a STRING_LITERAL token, not as
an ERROR token: `yytext[j - 1]` is then the opening quote itself.  A literal whose last
characters are the escape pair backslash-quote is a STRING_LITERAL as well, and a literal
that ends in a lone backslash makes the escape copy the terminator and read past it.  The
buffer `"abc` of the specification is scanned as one ERROR token. -/
theorem C5_unterminated_string_classified_string_literal :
    analyze ['"'] 1 = ⟨[⟨TOKEN_STRING_LITERAL, ['"']⟩], 1, .finished⟩ ∧
    analyze ['"', 'a', '\\', '"'] 1 =
      ⟨[⟨TOKEN_STRING_LITERAL, ['"', 'a', '\\', '"']⟩], 1, .finished⟩ ∧
    analyze ['"', 'a', '\\'] 1 = ⟨[], 1, .fault .readPastEnd⟩ ∧
    analyze ['"', 'a', 'b', 'c'] 1 = ⟨[⟨TOKEN_ERROR, ['"', 'a', 'b', 'c']⟩], 1, .finished⟩ := by
  refine ⟨by decide, by decide, by decide, by decide⟩

/-- C6: a buffer that is a concatenation of whitespace characters, line comments and block
comments (also when the last block comment is never closed) makes `analyze` print no token,
and the scan ends at the terminator. -/
theorem C6_blanks_emit_no_token (bs : List Blank) (ln : Nat)
    (hvalid : blanksValid bs = true) :
    (analyze (blankChars bs) ln).tokens = [] ∧
      (analyze (blankChars bs) ln).status = .finished := by
  have h := loop_blanks bs hvalid ((blankChars bs).length + 2) ln (by omega)
  simp only [analyze, h, and_self]

/-- C6 at the buffer ` //a`, newline, `/*x*y*/`, tab. -/
theorem C6_blanks_emit_no_token_witness :
    (analyze " //a\n/*x*y*/\t".toList 1).tokens = [] ∧
      (analyze " //a\n/*x*y*/\t".toList 1).status = .finished :=
  C6_blanks_emit_no_token
    [.space ' ', .lineComment ['a'], .space '\n', .blockComment ['x', '*', 'y'], .space '\t']
    1 (by decide)

/-- C7: scanning is not compositional over concatenation.  The buffers `a` and `b` give one
IDENTIFIER token each, and the buffer `ab` gives the single IDENTIFIER `ab`; all three scans
stop at the terminator.  So there are buffers whose token streams, put one after the other,
differ from the token stream of their concatenation. -/
theorem C7_not_compositional :
    ∃ A B : List Char,
      (analyze A 1).status = .finished ∧ (analyze B 1).status = .finished ∧
      (analyze (A ++ B) 1).status = .finished ∧
      (analyze A 1).tokens ++ (analyze B 1).tokens ≠ (analyze (A ++ B) 1).tokens :=
  ⟨['a'], ['b'], by decide, by decide, by decide, by decide⟩

/-- C8: a newline inside a string literal or a character literal is consumed without
`yylineno++`.  The buffers quote-newline-quote, for both kinds of quote, and the literal
that is left open after a newline each hold one newline and leave the line counter at its
initial 1. -/
theorem C8_newline_in_literal_not_counted :
    analyze ['"', '\n', '"'] 1 =
      ⟨[⟨TOKEN_STRING_LITERAL, ['"', '\n', '"']⟩], 1, .finished⟩ ∧
    analyze ['\'', '\n', '\''] 1 =
      ⟨[⟨TOKEN_CHARACTER_LITERAL, ['\'', '\n', '\'']⟩], 1, .finished⟩ ∧
    analyze ['"', 'a', '\n'] 1 = ⟨[⟨TOKEN_ERROR, ['"', 'a', '\n']⟩], 1, .finished⟩ ∧
    List.count '\n' ['"', '\n', '"'] = 1 := by
  refine ⟨by decide, by decide, by decide, by decide⟩

/-- C9: on a buffer made only of whitespace, line comments and block comments, closed or
not, `analyze` runs to the terminator and adds to `yylineno` exactly the number of newline
characters of the buffer.  In particular the iteration that consumes a block comment prints
no token and adds the number of newlines of the comment, and the iteration that consumes a
line comment prints no token, leaves the counter as it is and stops in front of the newline,
which the whitespace step then counts once. -/
theorem C9_blank_newlines_counted (bs : List Blank) (ln : Nat)
    (hvalid : blanksValid bs = true) :
    ((analyze (blankChars bs) ln).yylineno = ln + (blankChars bs).count '\n' ∧
      (analyze (blankChars bs) ln).status = .finished) ∧
    (∀ body r : List Char, (∀ c ∈ body, c ≠ NUL) → hasCloser body = false →
      step '/' ('*' :: (body ++ '*' :: '/' :: r)) ln =
        .ok ⟨none, r, ln + body.count '\n'⟩) ∧
    (∀ body r : List Char, (∀ c ∈ body, c ≠ '\n' ∧ c ≠ NUL) →
      step '/' ('/' :: (body ++ '\n' :: r)) ln = .ok ⟨none, '\n' :: r, ln⟩ ∧
      step '\n' r ln = .ok ⟨none, r, ln + 1⟩) := by
  have h := loop_blanks bs hvalid ((blankChars bs).length + 2) ln (by omega)
  refine ⟨by simp only [analyze, h, and_self], ?_, ?_⟩
  · intro body r hb hc
    exact step_blockComment body r ln hb hc
  · intro body r hb
    exact ⟨step_lineComment body '\n' r ln hb (Or.inr rfl),
      by simpa using step_space (c := '\n') (by decide) r ln⟩

/-- C9 at the buffer ` //a`, newline, `/*x`, newline, `y*/`, `/*z`, newline: three newlines,
one after the line comment, one in the closed and one in the open block comment. -/
theorem C9_blank_newlines_counted_witness :
    (analyze " //a\n/*x\ny*//*z\n".toList 5).yylineno = 8 ∧
      (analyze " //a\n/*x\ny*//*z\n".toList 5).status = .finished :=
  (C9_blank_newlines_counted
    [.space ' ', .lineComment ['a'], .space '\n', .blockComment ['x', '\n', 'y'],
      .openComment ['z', '\n']]
    5 (by decide)).1

/-! ## Every lexeme starts with the character that opened its step -/

theorem bind_ok {α β : Type} {x : Except Fault α} {f : α → Except Fault β} {b : β}
    (h : (x >>= f) = .ok b) : ∃ a, x = .ok a ∧ f a = .ok b := by
  cases x with
  | error e => simp [bind, Except.bind] at h
  | ok a => exact ⟨a, rfl, h⟩

theorem map_ok {α β : Type} {x : Except Fault α} {f : α → β} {b : β}
    (h : x.map f = .ok b) : ∃ a, x = .ok a ∧ f a = b := by
  cases x with
  | error e => simp [Except.map] at h
  | ok a => exact ⟨a, rfl, by simpa [Except.map] using h⟩

theorem copy_extends {y m y2 m2 : List Char} (h : copy y m = .ok (y2, m2)) : y <+: y2 := by
  cases m with
  | nil => simp [copy] at h
  | cons c cs =>
    simp only [copy] at h
    split at h
    · simp at h; exact ⟨[c], h.1⟩
    · simp at h

theorem copyWhile_extends (p : Char → Bool) {m : List Char} :
    ∀ {y y2 m2 : List Char}, copyWhile p y m = .ok (y2, m2) → y <+: y2 := by
  induction m with
  | nil => intro y y2 m2 h; simp [copyWhile] at h
  | cons c cs ih =>
    intro y y2 m2 h
    simp only [copyWhile] at h
    split at h
    · split at h
      · exact (List.prefix_append y [c]).trans (ih h)
      · simp at h
    · simp at h; rw [h.1]

theorem copyWhile_first (p : Char → Bool) {c : Char} {cs y2 m2 : List Char}
    (hc : p c = true) (h : copyWhile p [] (c :: cs) = .ok (y2, m2)) : [c] <+: y2 := by
  simp only [copyWhile, hc, if_true] at h
  split at h
  · exact copyWhile_extends p h
  · simp at h

theorem text_ne_nil {c : Char} (hc : c ≠ NUL) {y : List Char} (h : [c] <+: y)
    (type : TokenType) : (print_token type y).text ≠ [] := by
  obtain ⟨l, rfl⟩ := h
  simp [print_token, cstr_cons_of_ne hc]

theorem identifier_text {c : Char} {cs m : List Char} {tok : Token} (hc : c ≠ NUL)
    (hs : isalpha c = true ∨ c = '_') (h : identifier (c :: cs) = .ok (tok, m)) :
    tok.text ≠ [] := by
  unfold identifier at h
  obtain ⟨⟨y, m1⟩, h1, h⟩ := bind_ok h
  obtain ⟨-, -, h⟩ := bind_ok h
  simp only [pure, Except.pure, Except.ok.injEq, Prod.mk.injEq] at h
  have hp : (fun c => isalnum c || decide (c = '_')) c = true := identStart_identChar hs
  rw [← h.1]
  exact text_ne_nil hc (copyWhile_first _ hp h1) _

theorem numLead_extends {c : Char} {cs y m : List Char} {hd : Bool}
    (hs : isdigit c = true ∨ c = '.') (h : numLead (c :: cs) = .ok (hd, y, m)) :
    [c] <+: y := by
  unfold numLead at h
  obtain ⟨d, h1, h⟩ := bind_ok h
  simp only [rd, Except.ok.injEq] at h1
  subst h1
  obtain ⟨⟨hd1, y1, m1⟩, h2, h⟩ := bind_ok h
  obtain ⟨⟨y2, m2⟩, h3, h⟩ := bind_ok h
  simp only [pure, Except.pure, Except.ok.injEq, Prod.mk.injEq] at h
  obtain ⟨-, rfl, -⟩ := h
  split at h2
  · obtain ⟨⟨ya, ma⟩, h4, h5⟩ := map_ok h2
    simp only [Prod.mk.injEq] at h5
    obtain ⟨-, rfl, rfl⟩ := h5
    simp only [copy] at h4
    split at h4
    · simp only [List.nil_append, Except.ok.injEq, Prod.mk.injEq] at h4
      rw [← h4.1] at h3
      exact copyWhile_extends _ h3
    · simp at h4
  · rename_i hdot
    have hdig : isdigit c = true := hs.resolve_right hdot
    simp only [pure, Except.pure, Except.ok.injEq, Prod.mk.injEq] at h2
    obtain ⟨-, rfl, rfl⟩ := h2
    exact copyWhile_first _ hdig h3

theorem numFrac_extends {hd hd2 : Bool} {y m y2 m2 : List Char}
    (h : numFrac hd y m = .ok (hd2, y2, m2)) : y <+: y2 := by
  unfold numFrac at h
  obtain ⟨c, -, h⟩ := bind_ok h
  split at h
  · obtain ⟨⟨ya, ma⟩, h2, h⟩ := bind_ok h
    obtain ⟨⟨yb, mb⟩, h3, h⟩ := bind_ok h
    simp only [pure, Except.pure, Except.ok.injEq, Prod.mk.injEq] at h
    obtain ⟨-, rfl, -⟩ := h
    exact (copy_extends h2).trans (copyWhile_extends _ h3)
  · simp only [pure, Except.pure, Except.ok.injEq, Prod.mk.injEq] at h
    rw [h.2.1]

theorem numExp_extends {he : Bool} {y m y2 m2 : List Char}
    (h : numExp y m = .ok (he, y2, m2)) : y <+: y2 := by
  unfold numExp at h
  obtain ⟨c, -, h⟩ := bind_ok h
  split at h
  · obtain ⟨⟨ya, ma⟩, h2, h⟩ := bind_ok h
    obtain ⟨s, -, h⟩ := bind_ok h
    obtain ⟨⟨yb, mb⟩, h3, h⟩ := bind_ok h
    obtain ⟨⟨yc, mc⟩, h4, h⟩ := bind_ok h
    simp only [pure, Except.pure, Except.ok.injEq, Prod.mk.injEq] at h
    obtain ⟨-, rfl, -⟩ := h
    refine ((copy_extends h2).trans ?_).trans (copyWhile_extends _ h4)
    split at h3
    · exact copy_extends h3
    · simp only [pure, Except.pure, Except.ok.injEq, Prod.mk.injEq] at h3
      rw [h3.1]
  · simp only [pure, Except.pure, Except.ok.injEq, Prod.mk.injEq] at h
    rw [h.2.1]

theorem numSuffix_extends {y m y2 m2 : List Char}
    (h : numSuffix y m = .ok (y2, m2)) : y <+: y2 := by
  unfold numSuffix at h
  obtain ⟨c, -, h⟩ := bind_ok h
  split at h
  · exact copy_extends h
  · simp only [pure, Except.pure, Except.ok.injEq, Prod.mk.injEq] at h
    rw [h.1]

theorem number_text {c : Char} {cs m : List Char} {tok : Token} (hc : c ≠ NUL)
    (hs : isdigit c = true ∨ c = '.') (h : number (c :: cs) = .ok (tok, m)) :
    tok.text ≠ [] := by
  unfold number at h
  obtain ⟨⟨hd1, y1, m1⟩, h1, h⟩ := bind_ok h
  obtain ⟨⟨hd2, y2, m2⟩, h2, h⟩ := bind_ok h
  obtain ⟨⟨he, y3, m3⟩, h3, h⟩ := bind_ok h
  obtain ⟨⟨y4, m4⟩, h4, h⟩ := bind_ok h
  obtain ⟨-, -, h⟩ := bind_ok h
  simp only [pure, Except.pure, Except.ok.injEq, Prod.mk.injEq] at h
  rw [← h.1]
  exact text_ne_nil hc ((((numLead_extends hs h1).trans (numFrac_extends h2)).trans
    (numExp_extends h3)).trans (numSuffix_extends h4)) _

theorem stringBody_extends :
    ∀ (n : Nat) {m y y2 m2 : List Char}, m.length ≤ n →
      stringBody y m = .ok (y2, m2) → y <+: y2 := by
  intro n
  induction n with
  | zero =>
    intro m y y2 m2 hn h
    cases m with
    | nil => simp [stringBody] at h
    | cons c cs => simp at hn
  | succ n ih =>
    intro m y y2 m2 hn h
    cases m with
    | nil => simp [stringBody] at h
    | cons c cs =>
      cases cs with
      | nil =>
        simp only [stringBody] at h
        split at h
        · split at h
          · split at h <;> simp at h
          · split at h <;> simp at h
        · simp only [Except.ok.injEq, Prod.mk.injEq] at h
          rw [h.1]
      | cons d ds =>
        simp only [List.length_cons] at hn
        simp only [stringBody] at h
        split at h
        · split at h
          · split at h
            · split at h
              · exact (List.prefix_append y [c, d]).trans (ih (by omega) h)
              · simp at h
            · simp at h
          · split at h
            · exact (List.prefix_append y [c]).trans
                (ih (by simp only [List.length_cons]; omega) h)
            · simp at h
        · simp only [Except.ok.injEq, Prod.mk.injEq] at h
          rw [h.1]

theorem copy_first {c : Char} {cs y m : List Char} (h : copy [] (c :: cs) = .ok (y, m)) :
    y = [c] ∧ m = cs := by
  simp only [copy] at h
  split at h
  · simp only [List.nil_append, Except.ok.injEq, Prod.mk.injEq] at h
    exact ⟨h.1.symm, h.2.symm⟩
  · simp at h

theorem string_literal_text {c : Char} {cs m : List Char} {tok : Token} (hc : c ≠ NUL)
    (h : string_literal (c :: cs) = .ok (tok, m)) : tok.text ≠ [] := by
  unfold string_literal at h
  obtain ⟨⟨y1, m1⟩, h1, ha⟩ := bind_ok h
  obtain ⟨⟨y2, m2⟩, h2, hb⟩ := bind_ok ha
  obtain ⟨d, -, hd⟩ := bind_ok hb
  obtain ⟨⟨y3, m3⟩, h3, he⟩ := bind_ok hd
  obtain ⟨-, -, hf⟩ := bind_ok he
  simp only [pure, Except.pure, Except.ok.injEq, Prod.mk.injEq] at hf
  clear h ha hb hd he
  obtain ⟨rfl, rfl⟩ := copy_first h1
  have h23 : y2 <+: y3 := by
    split at h3
    · exact copy_extends h3
    · simp only [pure, Except.pure, Except.ok.injEq, Prod.mk.injEq] at h3
      rw [h3.1]
  rw [← hf.1]
  exact text_ne_nil hc ((stringBody_extends _ (le_refl _) h2).trans h23) _

theorem character_literal_text {c : Char} {cs m : List Char} {tok : Token} (hc : c ≠ NUL)
    (h : character_literal (c :: cs) = .ok (tok, m)) : tok.text ≠ [] := by
  unfold character_literal at h
  obtain ⟨⟨y1, m1⟩, h1, ha⟩ := bind_ok h
  obtain ⟨d, -, hb⟩ := bind_ok ha
  obtain ⟨⟨y2, m2⟩, h2, hd⟩ := bind_ok hb
  obtain ⟨⟨y3, m3⟩, h3, he⟩ := bind_ok hd
  obtain ⟨e, -, hf⟩ := bind_ok he
  obtain ⟨⟨y4, m4⟩, h4, hg⟩ := bind_ok hf
  obtain ⟨-, -, hh⟩ := bind_ok hg
  simp only [pure, Except.pure, Except.ok.injEq, Prod.mk.injEq] at hh
  clear h ha hb hd he hf hg
  obtain ⟨rfl, rfl⟩ := copy_first h1
  have h12 : [c] <+: y2 := by
    split at h2
    · exact copy_extends h2
    · simp only [pure, Except.pure, Except.ok.injEq, Prod.mk.injEq] at h2
      rw [h2.1]
  have h34 : y3 <+: y4 := by
    split at h4
    · exact copy_extends h4
    · simp only [pure, Except.pure, Except.ok.injEq, Prod.mk.injEq] at h4
      rw [h4.1]
  rw [← hh.1]
  exact text_ne_nil hc ((h12.trans (copy_extends h3)).trans h34) _

theorem opRun_extends {m : List Char} :
    ∀ {y y2 m2 : List Char}, opRun y m = .ok (y2, m2) → y <+: y2 := by
  induction m with
  | nil => intro y y2 m2 h; simp [opRun] at h
  | cons c cs ih =>
    intro y y2 m2 h
    simp only [opRun] at h
    split at h
    · exact (List.prefix_append y [c]).trans (ih h)
    · simp only [Except.ok.injEq, Prod.mk.injEq] at h
      rw [h.1]

theorem backoff_text {c : Char} (hc : c ≠ NUL) {y : List Char} (hy : [c] <+: y) :
    ∀ j : Nat, (backoff y j).1.text ≠ [] := by
  obtain ⟨l, rfl⟩ := hy
  intro j
  induction j with
  | zero => simp [backoff, print_token, cstr_cons_of_ne hc]
  | succ j ih =>
    simp only [backoff]
    split
    · simp [print_token, cstr_cons_of_ne hc]
    · exact ih

theorem operator_text {c : Char} {cs m : List Char} {tok : Token} (hc : c ≠ NUL)
    (h : operator c cs = .ok (tok, m)) : tok.text ≠ [] := by
  unfold operator at h
  obtain ⟨⟨y, m1⟩, h1, h⟩ := bind_ok h
  simp only [pure, Except.pure, Except.ok.injEq, Prod.mk.injEq] at h
  rw [← h.1]
  exact backoff_text hc (opRun_extends h1) _

theorem step_text {c : Char} {cs : List Char} {ln : Nat} {s : Step} (hc : c ≠ NUL)
    (h : step c cs ln = .ok s) : ∀ t, s.token = some t → t.text ≠ [] := by
  intro t ht
  unfold step at h
  split at h
  · simp only [Except.ok.injEq] at h
    rw [← h] at ht; simp at ht
  split at h
  · obtain ⟨a, -, h⟩ := map_ok h
    rw [← h] at ht; simp at ht
  split at h
  · obtain ⟨a, -, h⟩ := map_ok h
    rw [← h] at ht; simp at ht
  split at h
  · rename_i hs
    obtain ⟨⟨tok, m⟩, h1, h⟩ := map_ok h
    rw [← h] at ht
    simp only [Option.some.injEq] at ht
    rw [← ht]
    exact identifier_text hc hs h1
  split at h
  · rename_i hs
    obtain ⟨⟨tok, m⟩, h1, h⟩ := map_ok h
    rw [← h] at ht
    simp only [Option.some.injEq] at ht
    rw [← ht]
    exact number_text hc (hs.imp id (fun x => x.1)) h1
  split at h
  · obtain ⟨⟨tok, m⟩, h1, h⟩ := map_ok h
    rw [← h] at ht
    simp only [Option.some.injEq] at ht
    rw [← ht]
    exact string_literal_text hc h1
  split at h
  · obtain ⟨⟨tok, m⟩, h1, h⟩ := map_ok h
    rw [← h] at ht
    simp only [Option.some.injEq] at ht
    rw [← ht]
    exact character_literal_text hc h1
  split at h
  · obtain ⟨⟨tok, m⟩, h1, h⟩ := map_ok h
    rw [← h] at ht
    simp only [Option.some.injEq] at ht
    rw [← ht]
    exact operator_text hc h1
  split at h
  · simp only [Except.ok.injEq] at h
    rw [← h] at ht
    simp only [Option.some.injEq] at ht
    rw [← ht]
    exact text_ne_nil hc (List.prefix_refl _) _
  · simp only [Except.ok.injEq] at h
    rw [← h] at ht; simp at ht

theorem loop_text :
    ∀ (fuel : Nat) (m : List Char) (ln : Nat), ∀ t ∈ (loop fuel m ln).tokens, t.text ≠ [] := by
  intro fuel
  induction fuel with
  | zero => intro m ln t ht; simp [loop] at ht
  | succ fuel ih =>
    intro m ln t ht
    cases m with
    | nil => simp [loop] at ht
    | cons c cs =>
      by_cases hc : c = NUL
      · simp [loop, hc] at ht
      · cases hs : step c cs ln with
        | error f => simp [loop, hc, hs] at ht
        | ok s =>
          rw [loop_step hc hs] at ht
          simp only [List.mem_append, Option.mem_toList, Option.mem_def] at ht
          rcases ht with ht | ht
          · exact step_text hc hs t ht
          · exact ih _ _ t ht

/-- C10: on every buffer and from every line number, each token `analyze` hands to
`print_token` has a non-empty lexeme; the same holds after any number of iterations of the
main loop, so also for the tokens printed before a run leaves its arrays. -/
theorem C10_lexeme_nonempty (str : List Char) (ln : Nat) :
    (∀ t ∈ (analyze str ln).tokens, 1 ≤ t.text.length) ∧
      ∀ fuel : Nat, ∀ t ∈ (loop fuel (str ++ [NUL]) ln).tokens, 1 ≤ t.text.length :=
  ⟨fun t ht => List.length_pos.2 (loop_text _ _ _ t ht),
   fun _ t ht => List.length_pos.2 (loop_text _ _ _ t ht)⟩

/-! ## What a step consumes -/

theorem copy_split {y m y2 m2 : List Char} (h : copy y m = .ok (y2, m2)) :
    ∃ l, y2 = y ++ l ∧ m = l ++ m2 := by
  cases m with
  | nil => simp [copy] at h
  | cons c cs =>
    simp only [copy] at h
    split at h
    · simp only [Except.ok.injEq, Prod.mk.injEq] at h
      exact ⟨[c], h.1.symm, by simp [h.2]⟩
    · simp at h

theorem split_trans {y m y1 m1 y2 m2 : List Char}
    (h1 : ∃ l, y1 = y ++ l ∧ m = l ++ m1) (h2 : ∃ l, y2 = y1 ++ l ∧ m1 = l ++ m2) :
    ∃ l, y2 = y ++ l ∧ m = l ++ m2 := by
  obtain ⟨l1, rfl, rfl⟩ := h1
  obtain ⟨l2, rfl, rfl⟩ := h2
  exact ⟨l1 ++ l2, by simp, by simp⟩

theorem split_refl (y m : List Char) : ∃ l, y = y ++ l ∧ m = l ++ m :=
  ⟨[], by simp, by simp⟩

theorem copyWhile_split (p : Char → Bool) {m : List Char} :
    ∀ {y y2 m2 : List Char}, copyWhile p y m = .ok (y2, m2) →
      ∃ l, y2 = y ++ l ∧ m = l ++ m2 := by
  induction m with
  | nil => intro y y2 m2 h; simp [copyWhile] at h
  | cons c cs ih =>
    intro y y2 m2 h
    simp only [copyWhile] at h
    split at h
    · split at h
      · obtain ⟨l, h1, h2⟩ := ih h
        exact ⟨c :: l, by simp [h1], by simp [h2]⟩
      · simp at h
    · simp only [Except.ok.injEq, Prod.mk.injEq] at h
      exact ⟨[], by simp [h.1], by simp [h.2]⟩

theorem stringBody_split :
    ∀ (n : Nat) {m y y2 m2 : List Char}, m.length ≤ n →
      stringBody y m = .ok (y2, m2) → ∃ l, y2 = y ++ l ∧ m = l ++ m2 := by
  intro n
  induction n with
  | zero =>
    intro m y y2 m2 hn h
    cases m with
    | nil => simp [stringBody] at h
    | cons c cs => simp at hn
  | succ n ih =>
    intro m y y2 m2 hn h
    cases m with
    | nil => simp [stringBody] at h
    | cons c cs =>
      cases cs with
      | nil =>
        simp only [stringBody] at h
        split at h
        · split at h
          · split at h <;> simp at h
          · split at h <;> simp at h
        · simp only [Except.ok.injEq, Prod.mk.injEq] at h
          exact ⟨[], by simp [h.1], by simp [h.2]⟩
      | cons d ds =>
        simp only [List.length_cons] at hn
        simp only [stringBody] at h
        split at h
        · split at h
          · split at h
            · split at h
              · obtain ⟨l, h1, h2⟩ := ih (by omega) h
                exact ⟨c :: d :: l, by simp [h1], by simp [h2]⟩
              · simp at h
            · simp at h
          · split at h
            · obtain ⟨l, h1, h2⟩ := ih (by simp only [List.length_cons]; omega) h
              exact ⟨c :: l, by simp [h1], by simp [h2]⟩
            · simp at h
        · simp only [Except.ok.injEq, Prod.mk.injEq] at h
          exact ⟨[], by simp [h.1], by simp [h.2]⟩

theorem opRun_split {m : List Char} :
    ∀ {y y2 m2 : List Char}, opRun y m = .ok (y2, m2) →
      (∃ l, y2 = y ++ l ∧ m = l ++ m2) ∧ y2.length ≤ max y.length 3 := by
  induction m with
  | nil => intro y y2 m2 h; simp [opRun] at h
  | cons c cs ih =>
    intro y y2 m2 h
    simp only [opRun] at h
    split at h
    · rename_i hc
      obtain ⟨⟨l, h1, h2⟩, h3⟩ := ih h
      refine ⟨⟨c :: l, by simp [h1], by simp [h2]⟩, ?_⟩
      simp only [List.length_append, List.length_cons, List.length_nil] at h3
      omega
    · simp only [Except.ok.injEq, Prod.mk.injEq] at h
      exact ⟨⟨[], by simp [h.1], by simp [h.2]⟩, by rw [← h.1]; omega⟩

theorem skipLine_split {m : List Char} :
    ∀ {m2 : List Char}, skipLine m = .ok m2 → ∃ l, m = l ++ m2 := by
  induction m with
  | nil => intro m2 h; simp [skipLine] at h
  | cons c cs ih =>
    intro m2 h
    simp only [skipLine] at h
    split at h
    · obtain ⟨l, h1⟩ := ih h
      exact ⟨c :: l, by simp [h1]⟩
    · simp only [Except.ok.injEq] at h
      exact ⟨[], by simp [h]⟩

theorem skipBlock_split {m : List Char} :
    ∀ {ln ln2 : Nat} {m2 : List Char}, skipBlock m ln = .ok (m2, ln2) →
      ∃ l, m = l ++ m2 := by
  induction m with
  | nil => intro ln ln2 m2 h; simp [skipBlock] at h
  | cons c cs ih =>
    intro ln ln2 m2 h
    simp only [skipBlock] at h
    split at h
    · obtain ⟨l, h1⟩ := ih h
      exact ⟨c :: l, by simp [h1]⟩
    · simp only [Except.ok.injEq, Prod.mk.injEq] at h
      exact ⟨[], by simp [h.1]⟩

theorem block_comment_split {cs m : List Char} {ln ln2 : Nat}
    (h : block_comment cs ln = .ok (m, ln2)) : ∃ l, cs = l ++ m := by
  unfold block_comment at h
  obtain ⟨⟨m1, ln1⟩, h1, ha⟩ := bind_ok h
  obtain ⟨d, -, hb⟩ := bind_ok ha
  simp only [pure, Except.pure, Except.ok.injEq, Prod.mk.injEq] at hb
  obtain ⟨l, hl⟩ := skipBlock_split h1
  have hcs : cs = cs.take 1 ++ (l ++ m1) := by rw [← hl, List.take_append_drop]
  split at hb
  · refine ⟨cs.take 1 ++ l ++ m1.take 2, ?_⟩
    rw [← hb.1, List.append_assoc, List.append_assoc, List.take_append_drop]
    exact hcs
  · refine ⟨cs.take 1 ++ l, ?_⟩
    rw [← hb.1, List.append_assoc]
    exact hcs

theorem identifier_split {str m : List Char} {tok : Token}
    (h : identifier str = .ok (tok, m)) :
    ∃ y, str = y ++ m ∧ tok.text = cstr y ∧
      (tok.type = TOKEN_RESERVED_WORD ∨ tok.type = TOKEN_IDENTIFIER) := by
  unfold identifier at h
  obtain ⟨⟨y, m1⟩, h1, ha⟩ := bind_ok h
  obtain ⟨-, -, hb⟩ := bind_ok ha
  simp only [pure, Except.pure, Except.ok.injEq, Prod.mk.injEq] at hb
  obtain ⟨l, hy, hm⟩ := copyWhile_split _ h1
  simp only [List.nil_append] at hy
  refine ⟨y, by rw [hm, hy, hb.2], by rw [← hb.1]; rfl, ?_⟩
  rw [← hb.1]
  by_cases hr : is_reserved_word y = true
  · left; simp [print_token, hr]
  · right; simp [print_token, hr]

theorem numLead_split {str y m : List Char} {hd : Bool}
    (h : numLead str = .ok (hd, y, m)) : ∃ l, y = [] ++ l ∧ str = l ++ m := by
  unfold numLead at h
  obtain ⟨d, -, ha⟩ := bind_ok h
  obtain ⟨⟨hd1, y1, m1⟩, h2, hb⟩ := bind_ok ha
  obtain ⟨⟨y2, m2⟩, h3, hc⟩ := bind_ok hb
  simp only [pure, Except.pure, Except.ok.injEq, Prod.mk.injEq] at hc
  obtain ⟨-, rfl, rfl⟩ := hc
  refine split_trans ?_ (copyWhile_split _ h3)
  split at h2
  · obtain ⟨⟨ya, ma⟩, h4, h5⟩ := map_ok h2
    simp only [Prod.mk.injEq] at h5
    obtain ⟨-, rfl, rfl⟩ := h5
    exact copy_split h4
  · simp only [pure, Except.pure, Except.ok.injEq, Prod.mk.injEq] at h2
    obtain ⟨-, rfl, rfl⟩ := h2
    exact split_refl _ _

theorem numFrac_split {hd hd2 : Bool} {y m y2 m2 : List Char}
    (h : numFrac hd y m = .ok (hd2, y2, m2)) : ∃ l, y2 = y ++ l ∧ m = l ++ m2 := by
  unfold numFrac at h
  obtain ⟨c, -, ha⟩ := bind_ok h
  split at ha
  · obtain ⟨⟨ya, ma⟩, h2, hb⟩ := bind_ok ha
    obtain ⟨⟨yb, mb⟩, h3, hc⟩ := bind_ok hb
    simp only [pure, Except.pure, Except.ok.injEq, Prod.mk.injEq] at hc
    obtain ⟨-, rfl, rfl⟩ := hc
    exact split_trans (copy_split h2) (copyWhile_split _ h3)
  · simp only [pure, Except.pure, Except.ok.injEq, Prod.mk.injEq] at ha
    obtain ⟨-, rfl, rfl⟩ := ha
    exact split_refl _ _

theorem numExp_split {he : Bool} {y m y2 m2 : List Char}
    (h : numExp y m = .ok (he, y2, m2)) : ∃ l, y2 = y ++ l ∧ m = l ++ m2 := by
  unfold numExp at h
  obtain ⟨c, -, ha⟩ := bind_ok h
  split at ha
  · obtain ⟨⟨ya, ma⟩, h2, hb⟩ := bind_ok ha
    obtain ⟨s, -, hc⟩ := bind_ok hb
    obtain ⟨⟨yb, mb⟩, h3, hd⟩ := bind_ok hc
    obtain ⟨⟨yc, mc⟩, h4, hf⟩ := bind_ok hd
    simp only [pure, Except.pure, Except.ok.injEq, Prod.mk.injEq] at hf
    obtain ⟨-, rfl, rfl⟩ := hf
    refine split_trans (split_trans (copy_split h2) ?_) (copyWhile_split _ h4)
    split at h3
    · exact copy_split h3
    · simp only [pure, Except.pure, Except.ok.injEq, Prod.mk.injEq] at h3
      obtain ⟨rfl, rfl⟩ := h3
      exact split_refl _ _
  · simp only [pure, Except.pure, Except.ok.injEq, Prod.mk.injEq] at ha
    obtain ⟨-, rfl, rfl⟩ := ha
    exact split_refl _ _

theorem numSuffix_split {y m y2 m2 : List Char}
    (h : numSuffix y m = .ok (y2, m2)) : ∃ l, y2 = y ++ l ∧ m = l ++ m2 := by
  unfold numSuffix at h
  obtain ⟨c, -, ha⟩ := bind_ok h
  split at ha
  · exact copy_split ha
  · simp only [pure, Except.pure, Except.ok.injEq, Prod.mk.injEq] at ha
    obtain ⟨rfl, rfl⟩ := ha
    exact split_refl _ _

theorem number_split {str m : List Char} {tok : Token}
    (h : number str = .ok (tok, m)) :
    ∃ y, str = y ++ m ∧ tok.text = cstr y ∧
      (tok.type = TOKEN_FLOAT_CONSTANT ∨ tok.type = TOKEN_INTEGER_CONSTANT) := by
  unfold number at h
  obtain ⟨⟨hd1, y1, m1⟩, h1, ha⟩ := bind_ok h
  obtain ⟨⟨hd2, y2, m2⟩, h2, hb⟩ := bind_ok ha
  obtain ⟨⟨he, y3, m3⟩, h3, hc⟩ := bind_ok hb
  obtain ⟨⟨y4, m4⟩, h4, hd⟩ := bind_ok hc
  obtain ⟨-, -, hf⟩ := bind_ok hd
  simp only [pure, Except.pure, Except.ok.injEq, Prod.mk.injEq] at hf
  obtain ⟨l, hy, hm⟩ := split_trans (split_trans (split_trans (numLead_split h1)
    (numFrac_split h2)) (numExp_split h3)) (numSuffix_split h4)
  simp only [List.nil_append] at hy
  refine ⟨y4, by rw [hm, hy, hf.2], by rw [← hf.1]; rfl, ?_⟩
  rw [← hf.1]
  by_cases hr : hd2 = true ∨ he = true
  · left; simp only [print_token, hr, if_true]
  · right; simp only [print_token, hr, if_false]

theorem string_literal_split {str m : List Char} {tok : Token}
    (h : string_literal str = .ok (tok, m)) :
    ∃ y, str = y ++ m ∧ tok.text = cstr y := by
  unfold string_literal at h
  obtain ⟨⟨y1, m1⟩, h1, ha⟩ := bind_ok h
  obtain ⟨⟨y2, m2⟩, h2, hb⟩ := bind_ok ha
  obtain ⟨d, -, hd⟩ := bind_ok hb
  obtain ⟨⟨y3, m3⟩, h3, he⟩ := bind_ok hd
  obtain ⟨-, -, hf⟩ := bind_ok he
  simp only [pure, Except.pure, Except.ok.injEq, Prod.mk.injEq] at hf
  have h23 : ∃ l, y3 = y2 ++ l ∧ m2 = l ++ m3 := by
    split at h3
    · exact copy_split h3
    · simp only [pure, Except.pure, Except.ok.injEq, Prod.mk.injEq] at h3
      obtain ⟨rfl, rfl⟩ := h3
      exact split_refl _ _
  obtain ⟨l, hy, hm⟩ := split_trans (split_trans (copy_split h1)
    (stringBody_split _ (le_refl _) h2)) h23
  simp only [List.nil_append] at hy
  exact ⟨y3, by rw [hm, hy, hf.2], by rw [← hf.1]; rfl⟩

theorem character_literal_split {str m : List Char} {tok : Token}
    (h : character_literal str = .ok (tok, m)) :
    ∃ y, str = y ++ m ∧ tok.text = cstr y := by
  unfold character_literal at h
  obtain ⟨⟨y1, m1⟩, h1, ha⟩ := bind_ok h
  obtain ⟨d, -, hb⟩ := bind_ok ha
  obtain ⟨⟨y2, m2⟩, h2, hd⟩ := bind_ok hb
  obtain ⟨⟨y3, m3⟩, h3, he⟩ := bind_ok hd
  obtain ⟨e, -, hf⟩ := bind_ok he
  obtain ⟨⟨y4, m4⟩, h4, hg⟩ := bind_ok hf
  obtain ⟨-, -, hh⟩ := bind_ok hg
  simp only [pure, Except.pure, Except.ok.injEq, Prod.mk.injEq] at hh
  have h12 : ∃ l, y2 = y1 ++ l ∧ m1 = l ++ m2 := by
    split at h2
    · exact copy_split h2
    · simp only [pure, Except.pure, Except.ok.injEq, Prod.mk.injEq] at h2
      obtain ⟨rfl, rfl⟩ := h2
      exact split_refl _ _
  have h34 : ∃ l, y4 = y3 ++ l ∧ m3 = l ++ m4 := by
    split at h4
    · exact copy_split h4
    · simp only [pure, Except.pure, Except.ok.injEq, Prod.mk.injEq] at h4
      obtain ⟨rfl, rfl⟩ := h4
      exact split_refl _ _
  obtain ⟨l, hy, hm⟩ := split_trans (split_trans (split_trans (copy_split h1) h12)
    (copy_split h3)) h34
  simp only [List.nil_append] at hy
  exact ⟨y4, by rw [hm, hy, hh.2], by rw [← hh.1]; rfl⟩

theorem is_operator_char_cases {c : Char} (h : is_operator_char c = true) :
    c ∈ "+-*/%<>=!&|^~".toList ∨ c = NUL := by
  have h2 : c ∈ "+-*/%<>=!&|^~".toList ++ [NUL] := by
    simpa [is_operator_char, strchr] using h
  simpa only [List.mem_append, List.mem_singleton] using h2

theorem matchOperator_single {c : Char} (hop : is_operator_char c = true) (hc : c ≠ NUL) :
    matchOperator [c] ≠ TOKEN_ERROR := by
  have table : ∀ d ∈ "+-*/%<>=!&|^~".toList, matchOperator [d] ≠ TOKEN_ERROR := by
    decide
  rcases is_operator_char_cases hop with h | h
  · exact table c h
  · exact absurd h hc

theorem backoff_match {c : Char} {l : List Char} (hop : is_operator_char c = true)
    (hc : c ≠ NUL) :
    ∀ k : Nat, 1 ≤ k →
      ∃ j, 1 ≤ j ∧ j ≤ k ∧ matchOperator ((c :: l).take j) ≠ TOKEN_ERROR ∧
        backoff (c :: l) k =
          (print_token (matchOperator ((c :: l).take j)) ((c :: l).take j), j) := by
  intro k
  induction k with
  | zero => intro h; omega
  | succ k ih =>
    intro _
    by_cases hm : matchOperator ((c :: l).take (k + 1)) ≠ TOKEN_ERROR
    · exact ⟨k + 1, by omega, le_refl _, hm, by rw [backoff, if_pos hm]⟩
    · have hk : 1 ≤ k := by
        rcases Nat.eq_zero_or_pos k with h0 | h0
        · subst h0
          exact absurd (matchOperator_single hop hc) (by simpa using hm)
        · exact h0
      obtain ⟨j, h1, h2, h3, h4⟩ := ih hk
      exact ⟨j, h1, by omega, h3, by rw [backoff, if_neg hm, h4]⟩

theorem operator_split {c : Char} {cs m : List Char} {tok : Token}
    (hop : is_operator_char c = true) (hc : c ≠ NUL)
    (h : operator c cs = .ok (tok, m)) :
    ∃ y, c :: cs = y ++ m ∧ y ≠ [] ∧ tok.text = cstr y ∧ tok.type ≠ TOKEN_ERROR := by
  unfold operator at h
  obtain ⟨⟨y, m1⟩, h1, ha⟩ := bind_ok h
  simp only [pure, Except.pure, Except.ok.injEq, Prod.mk.injEq] at ha
  obtain ⟨⟨l, hy, hcs⟩, -⟩ := opRun_split h1
  simp only [List.singleton_append] at hy
  subst hy
  obtain ⟨j, hj1, hj2, hj3, hj4⟩ := backoff_match (l := l) hop hc (c :: l).length
    (by simp)
  rw [hj4] at ha
  simp only at ha
  refine ⟨(c :: l).take j, ?_, ?_, by rw [← ha.1]; rfl, by rw [← ha.1]; exact hj3⟩
  · rw [← ha.2, hcs, ← List.cons_append, List.drop_append_of_le_length hj2,
      ← List.append_assoc, List.take_append_drop]
  · obtain ⟨i, rfl⟩ : ∃ i, j = i + 1 := ⟨j - 1, by omega⟩
    simp

theorem ne_nil_of_text {tok : Token} {y : List Char} (ht : tok.text = cstr y)
    (hne : tok.text ≠ []) : y ≠ [] := by
  rintro rfl
  exact hne (by rw [ht]; rfl)

theorem step_consumes {c : Char} {cs : List Char} {ln : Nat} {s : Step} (hc : c ≠ NUL)
    (h : step c cs ln = .ok s) :
    ∃ y, c :: cs = y ++ s.str ∧ y ≠ [] ∧
      ∀ t, s.token = some t →
        t.text = cstr y ∧ (t.type = TOKEN_ERROR → c = '"' ∨ c = '\'') := by
  unfold step at h
  split at h
  · simp only [Except.ok.injEq] at h
    subst h
    exact ⟨[c], rfl, by simp, by simp⟩
  split at h
  · obtain ⟨m, h1, h2⟩ := map_ok h
    subst h2
    obtain ⟨l, hl⟩ := skipLine_split h1
    refine ⟨c :: (cs.take 1 ++ l), ?_, by simp, by simp⟩
    simp only [List.cons_append, List.append_assoc]
    rw [← hl, List.take_append_drop]
  split at h
  · obtain ⟨⟨m, ln2⟩, h1, h2⟩ := map_ok h
    subst h2
    obtain ⟨l, hl⟩ := block_comment_split h1
    exact ⟨c :: l, by simp [hl], by simp, by simp⟩
  split at h
  · rename_i hs
    obtain ⟨⟨tok, m⟩, h1, h2⟩ := map_ok h
    subst h2
    obtain ⟨y, hy, ht, hty⟩ := identifier_split h1
    refine ⟨y, hy, ne_nil_of_text ht (identifier_text hc hs h1), ?_⟩
    intro t htt
    simp only [Option.some.injEq] at htt
    subst htt
    refine ⟨ht, fun he => ?_⟩
    rcases hty with h3 | h3 <;> rw [h3] at he <;> exact absurd he (by decide)
  split at h
  · rename_i hs
    obtain ⟨⟨tok, m⟩, h1, h2⟩ := map_ok h
    subst h2
    obtain ⟨y, hy, ht, hty⟩ := number_split h1
    refine ⟨y, hy, ne_nil_of_text ht (number_text hc (hs.imp id (fun x => x.1)) h1), ?_⟩
    intro t htt
    simp only [Option.some.injEq] at htt
    subst htt
    refine ⟨ht, fun he => ?_⟩
    rcases hty with h3 | h3 <;> rw [h3] at he <;> exact absurd he (by decide)
  split at h
  · rename_i hq
    obtain ⟨⟨tok, m⟩, h1, h2⟩ := map_ok h
    subst h2
    obtain ⟨y, hy, ht⟩ := string_literal_split h1
    refine ⟨y, hy, ne_nil_of_text ht (string_literal_text hc h1), ?_⟩
    intro t htt
    simp only [Option.some.injEq] at htt
    subst htt
    exact ⟨ht, fun _ => Or.inl hq⟩
  split at h
  · rename_i hq
    obtain ⟨⟨tok, m⟩, h1, h2⟩ := map_ok h
    subst h2
    obtain ⟨y, hy, ht⟩ := character_literal_split h1
    refine ⟨y, hy, ne_nil_of_text ht (character_literal_text hc h1), ?_⟩
    intro t htt
    simp only [Option.some.injEq] at htt
    subst htt
    exact ⟨ht, fun _ => Or.inr hq⟩
  split at h
  · rename_i hop
    obtain ⟨⟨tok, m⟩, h1, h2⟩ := map_ok h
    subst h2
    obtain ⟨y, hy, hne, ht, hty⟩ := operator_split hop hc h1
    refine ⟨y, hy, hne, ?_⟩
    intro t htt
    simp only [Option.some.injEq] at htt
    subst htt
    exact ⟨ht, fun he => absurd he hty⟩
  split at h
  · rename_i hp
    simp only [Except.ok.injEq] at h
    subst h
    refine ⟨[c], rfl, by simp, ?_⟩
    intro t htt
    simp only [Option.some.injEq] at htt
    subst htt
    exact ⟨rfl, fun he => absurd he hp⟩
  · simp only [Except.ok.injEq] at h
    subst h
    exact ⟨[c], rfl, by simp, by simp⟩

theorem step_advances {c : Char} {cs : List Char} {ln : Nat} {s : Step} (hc : c ≠ NUL)
    (h : step c cs ln = .ok s) : s.str.length < (c :: cs).length := by
  obtain ⟨y, hy, hne, -⟩ := step_consumes hc h
  rw [hy, List.length_append]
  have : 0 < y.length := List.length_pos.2 hne
  omega

theorem loop_ends :
    ∀ (fuel : Nat) (m : List Char) (ln : Nat), m.length < fuel →
      (loop fuel m ln).status ≠ .outOfFuel := by
  intro fuel
  induction fuel with
  | zero => intro m ln h; omega
  | succ fuel ih =>
    intro m ln hm
    cases m with
    | nil => simp [loop]
    | cons c cs =>
      by_cases hc : c = NUL
      · simp [loop, hc]
      · cases hs : step c cs ln with
        | error f => simp [loop, hc, hs]
        | ok s =>
          rw [loop_step hc hs]
          have := step_advances hc hs
          exact ih _ _ (by omega)

theorem loop_fuel :
    ∀ (f1 f2 : Nat) (m : List Char) (ln : Nat), m.length < f1 → m.length < f2 →
      loop f1 m ln = loop f2 m ln := by
  intro f1
  induction f1 with
  | zero => intro f2 m ln h; omega
  | succ f1 ih =>
    intro f2 m ln h1 h2
    obtain ⟨g, rfl⟩ : ∃ g, f2 = g + 1 := ⟨f2 - 1, by omega⟩
    cases m with
    | nil => simp [loop]
    | cons c cs =>
      by_cases hc : c = NUL
      · simp [loop, hc]
      · cases hs : step c cs ln with
        | error f => simp [loop, hc, hs]
        | ok s =>
          have := step_advances hc hs
          rw [loop_step hc hs, loop_step hc hs, ih g s.str s.yylineno (by omega) (by omega)]

/-- Progress of the main loop.  An iteration that runs through leaves the cursor strictly
further than it found it; in the operator step the back-off stops with `j` at least 1,
because the operator character in `yytext[0]` is a spelling of the table by itself, so the
cursor does not come back to where the step began.  Hence the `str.length + 2` iterations
given to the loop are never used up and more iterations give the same run: a run stops at a
NUL under the cursor or where the scan leaves its arrays, and a step that prints an ERROR
token hands the rest of the array to the next iteration like any other step. -/
theorem scan_progress (str : List Char) (ln : Nat) :
    (analyze str ln).status ≠ .outOfFuel ∧
    (∀ fuel : Nat, str.length + 1 < fuel → loop fuel (str ++ [NUL]) ln = analyze str ln) ∧
    (∀ (c : Char) (cs : List Char) (l : Nat) (s : Step), c ≠ NUL → step c cs l = .ok s →
      s.str.length < (c :: cs).length) ∧
    (∀ (c : Char) (l : List Char) (k : Nat), is_operator_char c = true → c ≠ NUL → 1 ≤ k →
      1 ≤ (backoff (c :: l) k).2 ∧ (backoff (c :: l) k).1.type ≠ TOKEN_ERROR) ∧
    analyze ['\'', 'a', 'b', ' ', '"', 'c'] ln =
      ⟨[⟨TOKEN_ERROR, ['\'', 'a']⟩, ⟨TOKEN_IDENTIFIER, ['b']⟩,
        ⟨TOKEN_ERROR, ['"', 'c']⟩], ln, .finished⟩ := by
  refine ⟨loop_ends _ _ _ (by simp), ?_, ?_, ?_, ?_⟩
  · intro fuel hf
    exact loop_fuel _ _ _ _ (by simp; omega) (by simp)
  · intro c cs l s hc hs
    exact step_advances hc hs
  · intro c l k hop hc hk
    obtain ⟨j, h1, -, h3, h4⟩ := backoff_match (l := l) hop hc k hk
    rw [h4]
    exact ⟨h1, h3⟩
  · simp only [analyze]
    rfl

/-! ## The cursor and the terminator -/

/-- C12: the cursor can pass the terminator.  On the buffer `123` the number step takes the
NUL as a suffix and leaves nothing of the array (the cursor is at index 4, one past the
terminator at index 3), so the next test of the main loop reads outside the array.  The
character step copies the NUL that follows a lone quote, the string step the NUL that
follows a backslash, and the operator step the NUL that follows `=`; each then reads past
the terminator.  When the array goes on after the terminator, the NUL ends up inside the
characters of a token: quote, NUL, quote is printed as a CHARACTER_LITERAL.  On `x = 1;`
the scan stops at the terminator. -/
theorem C12_cursor_passes_terminator :
    step '1' ['2', '3', NUL] 1 =
      .ok ⟨some ⟨TOKEN_INTEGER_CONSTANT, ['1', '2', '3']⟩, [], 1⟩ ∧
    analyze ['1', '2', '3'] 1 =
      ⟨[⟨TOKEN_INTEGER_CONSTANT, ['1', '2', '3']⟩], 1, .fault .readPastEnd⟩ ∧
    analyze ['\''] 1 = ⟨[], 1, .fault .readPastEnd⟩ ∧
    analyze ['"', 'a', '\\'] 1 = ⟨[], 1, .fault .readPastEnd⟩ ∧
    analyze ['x', '='] 1 = ⟨[⟨TOKEN_IDENTIFIER, ['x']⟩], 1, .fault .readPastEnd⟩ ∧
    character_literal ['\'', NUL, '\'', NUL] =
      .ok (⟨TOKEN_CHARACTER_LITERAL, ['\'']⟩, [NUL]) ∧
    analyze "x = 1;".toList 1 =
      ⟨[⟨TOKEN_IDENTIFIER, ['x']⟩, ⟨TOKEN_ASSIGN, ['=']⟩,
        ⟨TOKEN_INTEGER_CONSTANT, ['1']⟩, ⟨TOKEN_SEMICOLON, [';']⟩], 1, .finished⟩ := by
  refine ⟨rfl, by decide, by decide, by decide, by decide, rfl, by decide⟩

/-- C13: `is_operator_char` returns true for the NUL character, which is none of the
thirteen operator characters; for every other character it returns true exactly when the
character is one of the thirteen. -/
theorem C13_is_operator_char_accepts_NUL :
    is_operator_char NUL = true ∧
    NUL ∉ ['+', '-', '*', '/', '%', '<', '>', '=', '!', '&', '|', '^', '~'] ∧
    ∀ c : Char, is_operator_char c = true ↔
      (c ∈ ['+', '-', '*', '/', '%', '<', '>', '=', '!', '&', '|', '^', '~'] ∨ c = NUL) := by
  refine ⟨by decide, by decide, ?_⟩
  intro c
  constructor
  · intro h
    exact is_operator_char_cases h
  · intro h
    have h2 : c ∈ "+-*/%<>=!&|^~".toList ++ [NUL] := by
      simpa only [List.mem_append, List.mem_singleton] using h
    simpa [is_operator_char, strchr] using h2

/-- C14: an identifier of 100 letters does not fit: the closing `yytext[j] = 0` is a write
at index 100, outside `yytext`, and no step checks `j` against `MAX_LEN`.  An identifier
of 99 letters is the longest lexeme that fits. -/
theorem C14_long_lexeme_overflows_yytext :
    analyze (List.replicate 100 'a') 1 = ⟨[], 1, .fault .yytextOverflow⟩ ∧
    analyze (List.replicate 99 'a') 1 =
      ⟨[⟨TOKEN_IDENTIFIER, List.replicate 99 'a'⟩], 1, .finished⟩ := by
  refine ⟨by decide, by decide⟩

/-- C16: a buffer that is one operator character, or two, gives no first token at all: the
greedy loop takes the terminator for a fourth kind of operator character and reads past
it, as on `+` and on `<=`.  When the array goes on after the terminator (`<`, NUL, `=`,
`x`), the three characters copied hold the C string `<`; it matches at `j = 3`, so the
token LESS_THAN with the one-character lexeme `<` moves the cursor by three, and the scan
of the C string `<` goes on to print the IDENTIFIER `x`.  Where a
character that is no operator character follows, the longest spelling is taken and the
scan goes on behind it: `<<<a` gives LEFT_SHIFT, LESS_THAN and the IDENTIFIER `a`. -/
theorem C16_short_operator_run_at_end :
    analyze ['+'] 1 = ⟨[], 1, .fault .readPastEnd⟩ ∧
    analyze ['<', '='] 1 = ⟨[], 1, .fault .readPastEnd⟩ ∧
    operator '<' [NUL, '=', 'x', NUL] = .ok (⟨TOKEN_LESS_THAN, ['<']⟩, ['x', NUL]) ∧
    analyze ['<', NUL, '=', 'x'] 1 =
      ⟨[⟨TOKEN_LESS_THAN, ['<']⟩, ⟨TOKEN_IDENTIFIER, ['x']⟩], 1, .finished⟩ ∧
    analyze ['<', '<', '<', 'a'] 1 =
      ⟨[⟨TOKEN_LEFT_SHIFT, ['<', '<']⟩, ⟨TOKEN_LESS_THAN, ['<']⟩,
        ⟨TOKEN_IDENTIFIER, ['a']⟩], 1, .finished⟩ ∧
    analyze ['<', 'a'] 1 =
      ⟨[⟨TOKEN_LESS_THAN, ['<']⟩, ⟨TOKEN_IDENTIFIER, ['a']⟩], 1, .finished⟩ := by
  refine ⟨by decide, by decide, rfl, by decide, by decide, by decide⟩

/-- C17: the buffer of two single quotes is printed as a CHARACTER_LITERAL whose lexeme has
two characters: the second quote is copied as the one base character, no closing quote
follows, and `yytext[j - 1]` is that base character.  In the same way quote, backslash,
quote is a CHARACTER_LITERAL of three characters whose last quote is the second half of the
escape pair.  The literals `'a'` and `'\n'` are CHARACTER_LITERAL tokens of three and four
characters, and `'ab'` followed by a blank gives the ERROR token `'a`, the IDENTIFIER `b`
and an ERROR token for the last quote and the blank. -/
theorem C17_character_literal_without_closing_quote :
    analyze ['\'', '\''] 1 =
      ⟨[⟨TOKEN_CHARACTER_LITERAL, ['\'', '\'']⟩], 1, .finished⟩ ∧
    analyze ['\'', '\\', '\'', ' '] 1 =
      ⟨[⟨TOKEN_CHARACTER_LITERAL, ['\'', '\\', '\'']⟩], 1, .finished⟩ ∧
    analyze ['\'', 'a', '\''] 1 =
      ⟨[⟨TOKEN_CHARACTER_LITERAL, ['\'', 'a', '\'']⟩], 1, .finished⟩ ∧
    analyze ['\'', '\\', 'n', '\''] 1 =
      ⟨[⟨TOKEN_CHARACTER_LITERAL, ['\'', '\\', 'n', '\'']⟩], 1, .finished⟩ ∧
    analyze ['\'', 'a', 'b', '\'', ' '] 1 =
      ⟨[⟨TOKEN_ERROR, ['\'', 'a']⟩, ⟨TOKEN_IDENTIFIER, ['b']⟩,
        ⟨TOKEN_ERROR, ['\'', ' ']⟩], 1, .finished⟩ := by
  refine ⟨by decide, by decide, by decide, by decide, by decide⟩

/-! ## The line counter across calls -/

theorem skipBlock_shift (k : Nat) :
    ∀ (m : List Char) (ln : Nat),
      skipBlock m (ln + k) = (skipBlock m ln).map (fun r => (r.1, r.2 + k)) := by
  intro m
  induction m with
  | nil => intro ln; rfl
  | cons c cs ih =>
    intro ln
    simp only [skipBlock]
    split
    · split
      · rw [Nat.add_right_comm, ih]
      · rw [ih]
    · rfl

theorem block_comment_shift (k : Nat) (cs : List Char) (ln : Nat) :
    block_comment cs (ln + k) = (block_comment cs ln).map (fun r => (r.1, r.2 + k)) := by
  unfold block_comment
  rw [skipBlock_shift]
  cases skipBlock (cs.drop 1) ln with
  | error f => rfl
  | ok r =>
    obtain ⟨m, l⟩ := r
    cases m with
    | nil => rfl
    | cons d ds => rfl

theorem step_shift (k : Nat) (c : Char) (cs : List Char) (ln : Nat) :
    step c cs (ln + k) =
      (step c cs ln).map (fun s => ⟨s.token, s.str, s.yylineno + k⟩) := by
  unfold step
  split
  · split
    · simp only [Except.map]; rw [Nat.add_right_comm]
    · rfl
  split
  · cases skipLine (cs.drop 1) <;> rfl
  split
  · rw [block_comment_shift]
    cases block_comment cs ln <;> rfl
  split
  · cases identifier (c :: cs) <;> rfl
  split
  · cases number (c :: cs) <;> rfl
  split
  · cases string_literal (c :: cs) <;> rfl
  split
  · cases character_literal (c :: cs) <;> rfl
  split
  · cases operator c cs <;> rfl
  split
  · rfl
  · rfl

theorem loop_shift (k : Nat) :
    ∀ (fuel : Nat) (m : List Char) (ln : Nat),
      loop fuel m (ln + k) =
        ⟨(loop fuel m ln).tokens, (loop fuel m ln).yylineno + k, (loop fuel m ln).status⟩ := by
  intro fuel
  induction fuel with
  | zero => intro m ln; rfl
  | succ fuel ih =>
    intro m ln
    cases m with
    | nil => rfl
    | cons c cs =>
      by_cases hc : c = NUL
      · simp [loop, hc]
      · cases hs : step c cs ln with
        | error f =>
          have h2 : step c cs (ln + k) = .error f := by rw [step_shift, hs]; rfl
          simp [loop, hc, hs, h2]
        | ok s =>
          have h2 : step c cs (ln + k) = .ok ⟨s.token, s.str, s.yylineno + k⟩ := by
            rw [step_shift, hs]; rfl
          rw [loop_step hc hs, loop_step hc h2]
          simp only [ih]

/-- C15, as the claim states it, fails: after a call on the buffer that is one newline the
line counter is 2, so a following call does not start at 1, and on the buffer `x` that
call ends with the counter at 2 where a first call ends with 1. -/
theorem C15_counterexample_line_counter_persists :
    (analyze ['\n'] yylineno_init).yylineno ≠ 1 ∧
    (analyze_after ['\n'] ['x']).yylineno ≠ (analyze ['x'] yylineno_init).yylineno := by
  refine ⟨by decide, by decide⟩

/-- C15, amended: the tokens `analyze` prints on a buffer, and the way the scan ends, are
the same whatever line counter the call starts with, so the same whether or not `analyze`
was called on another buffer before; the line counter itself is carried over: the call
ends as many lines above its start as a call that starts at the initial 1.  After a call on
a buffer `A` the counter stands `k` above 1, and the call on `B` ends `k` higher than a
first call on `B`. -/
theorem C15_only_line_counter_carried_over (A B : List Char) :
    (∀ ln k : Nat, analyze B (ln + k) =
      ⟨(analyze B ln).tokens, (analyze B ln).yylineno + k, (analyze B ln).status⟩) ∧
    (analyze_after A B).tokens = (analyze B yylineno_init).tokens ∧
    (analyze_after A B).status = (analyze B yylineno_init).status ∧
    ∃ k : Nat, (analyze A yylineno_init).yylineno = yylineno_init + k ∧
      (analyze_after A B).yylineno = (analyze B yylineno_init).yylineno + k := by
  have hshift : ∀ (X : List Char) (ln k : Nat), analyze X (ln + k) =
      ⟨(analyze X ln).tokens, (analyze X ln).yylineno + k, (analyze X ln).status⟩ := by
    intro X ln k
    simp only [analyze]
    exact loop_shift k _ _ ln
  have hA : (analyze A yylineno_init).yylineno = yylineno_init + (analyze A 0).yylineno := by
    have := hshift A 0 yylineno_init
    rw [Nat.zero_add] at this
    rw [this, Nat.add_comm]
  have hB := hshift B yylineno_init (analyze A 0).yylineno
  refine ⟨hshift B, ?_, ?_, (analyze A 0).yylineno, hA, ?_⟩
  · simp only [analyze_after, hA, hB]
  · simp only [analyze_after, hA, hB]
  · simp only [analyze_after, hA, hB]

/-! ## Punctuation -/

theorem punctuation_of_mem {c : Char} {k : TokenType} (h : (c, k) ∈ specPunctuation) :
    punctuation c = k ∧ k ≠ TOKEN_ERROR := by
  have table : ∀ p ∈ specPunctuation, punctuation p.1 = p.2 ∧ p.2 ≠ TOKEN_ERROR := by
    decide
  exact table (c, k) h

theorem punctuation_of_not_mem {c : Char} (h : c ∉ specPunctuation.map Prod.fst) :
    punctuation c = TOKEN_ERROR := by
  simp only [specPunctuation, List.map_cons, List.map_nil, List.mem_cons, List.mem_singleton,
    List.not_mem_nil, or_false, not_or] at h
  obtain ⟨h1, h2, h3, h4, h5, h6, h7, h8, h9, h10, h11, h12, h13⟩ := h
  simp only [punctuation, h1, h2, h3, h4, h5, h6, h7, h8, h9, h10, h11, h12, h13, if_false]

theorem single_char_scan (c : Char) (ln : Nat)
    (hnul : c ≠ NUL) (hsp : isspace c = false) (hal : isalpha c = false)
    (hdig : isdigit c = false) (hus : c ≠ '_') (hdq : c ≠ '"') (hsq : c ≠ '\'')
    (hop : is_operator_char c = false) :
    analyze [c] ln =
      ⟨if punctuation c ≠ TOKEN_ERROR then [⟨punctuation c, [c]⟩] else [], ln, .finished⟩ := by
  have hsl : c ≠ '/' := by
    rintro rfl
    exact absurd hop (by decide)
  have hd0 : isdigit NUL = false := by decide
  have hs : step c [NUL] ln =
      .ok ⟨if punctuation c ≠ TOKEN_ERROR then some ⟨punctuation c, [c]⟩ else none,
        [NUL], ln⟩ := by
    by_cases hp : punctuation c = TOKEN_ERROR
    · simp [step, hsp, hsl, hal, hus, hdig, hd0, hdq, hsq, hop, hp]
    · have hnul2 : ¬ c = NUL := hnul
      simp [step, hsp, hsl, hal, hus, hdig, hd0, hdq, hsq, hop, hp, print_token, cstr,
        hnul2]
  have hl : analyze [c] ln = loop (2 + 1) (c :: [NUL]) ln := rfl
  rw [hl, loop_step hnul hs, loop_NUL]
  by_cases hp : punctuation c = TOKEN_ERROR <;> simp [hp]

/-- C18: on a one-character buffer whose character is not NUL, no whitespace, no letter,
digit or underscore, no quote and no operator character, `analyze` prints exactly one token
when the character is one of the thirteen punctuation characters, with that character as
lexeme and the kind the specification assigns to it, and prints nothing otherwise; in both
cases the scan ends at the terminator with the line counter unchanged.  The thirteen kinds
are pairwise distinct. -/
theorem C18_single_punctuation_character (c : Char) (ln : Nat)
    (hnul : c ≠ NUL) (hsp : isspace c = false) (hal : isalpha c = false)
    (hdig : isdigit c = false) (hus : c ≠ '_') (hdq : c ≠ '"') (hsq : c ≠ '\'')
    (hop : is_operator_char c = false) :
    (∀ k : TokenType, (c, k) ∈ specPunctuation →
      analyze [c] ln = ⟨[⟨k, [c]⟩], ln, .finished⟩) ∧
    (c ∉ specPunctuation.map Prod.fst → analyze [c] ln = ⟨[], ln, .finished⟩) ∧
    (specPunctuation.map Prod.snd).Nodup ∧ specPunctuation.length = 13 := by
  have h := single_char_scan c ln hnul hsp hal hdig hus hdq hsq hop
  refine ⟨?_, ?_, by decide, rfl⟩
  · intro k hk
    obtain ⟨h1, h2⟩ := punctuation_of_mem hk
    rw [h, h1, if_pos h2]
  · intro hk
    rw [h, punctuation_of_not_mem hk]
    simp

/-- C18 at the buffers `;` and `@`: one SEMICOLON token, and no token at all. -/
theorem C18_single_punctuation_character_witness :
    analyze [';'] 1 = ⟨[⟨TOKEN_SEMICOLON, [';']⟩], 1, .finished⟩ ∧
    analyze ['@'] 1 = ⟨[], 1, .finished⟩ :=
  ⟨(C18_single_punctuation_character ';' 1 (by decide) (by decide) (by decide) (by decide)
      (by decide) (by decide) (by decide) (by decide)).1 TOKEN_SEMICOLON (by decide),
   (C18_single_punctuation_character '@' 1 (by decide) (by decide) (by decide) (by decide)
      (by decide) (by decide) (by decide) (by decide)).2.1 (by decide)⟩

/-! ## What the tokens are made of -/

theorem cstr_ne_NUL {y : List Char} : ∀ d ∈ cstr y, d ≠ NUL := by
  intro d hd
  have := List.mem_takeWhile_imp hd
  simpa using this

theorem step_token {c : Char} {cs : List Char} {ln : Nat} {s : Step} (hc : c ≠ NUL)
    (h : step c cs ln = .ok s) {t : Token} (ht : s.token = some t) :
    t.text.head? = some c ∧ (∀ d ∈ t.text, d ≠ NUL) ∧
      (t.type = TOKEN_ERROR → c = '"' ∨ c = '\'') ∧
      ∃ rest, c :: cs = t.text ++ rest ++ s.str := by
  obtain ⟨y, hy, hne, hall⟩ := step_consumes hc h
  obtain ⟨htext, hty⟩ := hall t ht
  obtain ⟨d, l, rfl⟩ : ∃ d l, y = d :: l := by
    cases y with
    | nil => exact absurd rfl hne
    | cons d l => exact ⟨d, l, rfl⟩
  have hd : d = c := by
    simp only [List.cons_append, List.cons.injEq] at hy
    exact hy.1.symm
  subst hd
  refine ⟨by rw [htext, cstr_cons_of_ne hc]; rfl, by rw [htext]; exact cstr_ne_NUL, hty,
    (d :: l).dropWhile (fun c => c != NUL), ?_⟩
  rw [htext, cstr, List.takeWhile_append_dropWhile]
  exact hy

theorem loop_tokens :
    ∀ (fuel : Nat) (m : List Char) (ln : Nat), ∀ t ∈ (loop fuel m ln).tokens,
      (∀ d ∈ t.text, d ≠ NUL) ∧
      (t.type = TOKEN_ERROR → t.text.head? = some '"' ∨ t.text.head? = some '\'') := by
  intro fuel
  induction fuel with
  | zero => intro m ln t ht; simp [loop] at ht
  | succ fuel ih =>
    intro m ln t ht
    cases m with
    | nil => simp [loop] at ht
    | cons c cs =>
      by_cases hc : c = NUL
      · simp [loop, hc] at ht
      · cases hs : step c cs ln with
        | error f => simp [loop, hc, hs] at ht
        | ok s =>
          rw [loop_step hc hs] at ht
          simp only [List.mem_append, Option.mem_toList, Option.mem_def] at ht
          rcases ht with ht | ht
          · obtain ⟨h1, h2, h3, -⟩ := step_token hc hs ht
            refine ⟨h2, fun he => ?_⟩
            rcases h3 he with rfl | rfl
            · exact Or.inl h1
            · exact Or.inr h1
          · exact ih _ _ t ht

/-- C19: on every buffer, and after any number of iterations of the main loop, an ERROR
token has a lexeme that begins with a double quote or with a single quote.  The operator
step prints no ERROR token: an operator character other than NUL is by itself a spelling of
the table, so the back-off stops with a match while `j` is at least 1 and never reaches
its `j == 0` branch. -/
theorem C19_error_tokens_start_with_quote (str : List Char) (ln : Nat) :
    (∀ t ∈ (analyze str ln).tokens, t.type = TOKEN_ERROR →
      t.text.head? = some '"' ∨ t.text.head? = some '\'') ∧
    (∀ fuel : Nat, ∀ t ∈ (loop fuel (str ++ [NUL]) ln).tokens, t.type = TOKEN_ERROR →
      t.text.head? = some '"' ∨ t.text.head? = some '\'') ∧
    (∀ c : Char, is_operator_char c = true → c ≠ NUL → matchOperator [c] ≠ TOKEN_ERROR) ∧
    (∀ (c : Char) (cs m : List Char) (tok : Token), is_operator_char c = true → c ≠ NUL →
      operator c cs = .ok (tok, m) → tok.type ≠ TOKEN_ERROR) ∧
    (∀ (c : Char) (l : List Char) (k : Nat), is_operator_char c = true → c ≠ NUL → 1 ≤ k →
      (backoff (c :: l) k).2 ≠ 0) := by
  refine ⟨fun t ht => (loop_tokens _ _ _ t ht).2, fun _ t ht => (loop_tokens _ _ _ t ht).2,
    fun c hop hc => matchOperator_single hop hc, ?_, ?_⟩
  · intro c cs m tok hop hc h
    obtain ⟨y, -, -, -, hty⟩ := operator_split hop hc h
    exact hty
  · intro c l k hop hc hk
    obtain ⟨j, h1, -, -, h4⟩ := backoff_match (l := l) hop hc k hk
    rw [h4]
    exact Nat.pos_iff_ne_zero.1 h1

theorem InOrder_append_left (a : List Char) :
    ∀ (ts : List (List Char)) (b : List Char), InOrder ts b → InOrder ts (a ++ b) := by
  intro ts b h
  cases ts with
  | nil => trivial
  | cons t ts =>
    obtain ⟨pre, post, hb, hrest⟩ := h
    exact ⟨a ++ pre, post, by simp [hb], hrest⟩

theorem InOrder_join :
    ∀ (ts : List (List Char)) (b : List Char), InOrder ts b → ts.flatten.Sublist b := by
  intro ts
  induction ts with
  | nil => intro b _; simp
  | cons t ts ih =>
    intro b h
    obtain ⟨pre, post, hb, hrest⟩ := h
    rw [hb, List.flatten_cons, List.append_assoc]
    exact List.sublist_append_of_sublist_right ((List.Sublist.refl t).append (ih post hrest))

theorem InOrder_trim :
    ∀ (ts : List (List Char)) (b : List Char),
      (∀ t ∈ ts, t ≠ [] ∧ ∀ d ∈ t, d ≠ NUL) → InOrder ts (b ++ [NUL]) → InOrder ts b := by
  intro ts
  induction ts with
  | nil => intro b _ _; trivial
  | cons t ts ih =>
    intro b hts h
    obtain ⟨pre, post, hb, hrest⟩ := h
    obtain ⟨htne, htnul⟩ := hts t (List.mem_cons_self _ _)
    rcases List.eq_nil_or_concat post with hp | ⟨post2, z, hp⟩
    · subst hp
      rcases List.eq_nil_or_concat t with ht | ⟨t2, x, ht⟩
      · exact absurd ht htne
      · rw [List.concat_eq_append] at ht
        subst ht
        rw [List.append_nil, ← List.append_assoc] at hb
        have := (List.append_inj' hb rfl).2
        simp only [List.cons.injEq, and_true] at this
        exact absurd this.symm (htnul x (by simp))
    · rw [List.concat_eq_append] at hp
      subst hp
      rw [← List.append_assoc] at hb
      obtain ⟨h1, h2⟩ := List.append_inj' hb rfl
      simp only [List.cons.injEq, and_true] at h2
      subst h2
      exact ⟨pre, post2, h1, ih post2 (fun u hu => hts u (List.mem_cons_of_mem _ hu)) hrest⟩

theorem loop_inOrder :
    ∀ (fuel : Nat) (m : List Char) (ln : Nat),
      InOrder ((loop fuel m ln).tokens.map Token.text) m := by
  intro fuel
  induction fuel with
  | zero => intro m ln; simp [loop, InOrder]
  | succ fuel ih =>
    intro m ln
    cases m with
    | nil => simp [loop, InOrder]
    | cons c cs =>
      by_cases hc : c = NUL
      · simp [loop, hc, InOrder]
      · cases hs : step c cs ln with
        | error f => simp [loop, hc, hs, InOrder]
        | ok s =>
          rw [loop_step hc hs]
          have hrest := ih s.str s.yylineno
          cases ht : s.token with
          | none =>
            obtain ⟨y, hy, -, -⟩ := step_consumes hc hs
            simp only [Option.toList, List.nil_append]
            rw [hy]
            exact InOrder_append_left y _ _ hrest
          | some t =>
            obtain ⟨-, -, -, rest, hr⟩ := step_token hc hs ht
            simp only [Option.toList, List.singleton_append, List.map_cons]
            exact ⟨[], rest ++ s.str, by simp [hr], InOrder_append_left rest _ _ hrest⟩

/-- The lexemes against the whole array.  For every array content, the bytes behind a NUL
included, the lexemes of the tokens printed before the run stops lie in the array in the
order in which they are printed, each as one contiguous piece that starts behind the end of
the one before it; so the lexemes put one after the other are a subsequence of the array.
No lexeme holds a NUL. -/
theorem lexemes_in_order_of_array (str : List Char) (ln : Nat) :
    InOrder ((analyze str ln).tokens.map Token.text) str ∧
    (((analyze str ln).tokens.map Token.text).flatten).Sublist str ∧
    ∀ t ∈ (analyze str ln).tokens, ∀ d ∈ t.text, d ≠ NUL := by
  have h1 : InOrder ((analyze str ln).tokens.map Token.text) str := by
    apply InOrder_trim
    · intro u hu
      obtain ⟨t, ht, rfl⟩ := List.mem_map.1 hu
      exact ⟨loop_text _ _ _ t ht, (loop_tokens _ _ _ t ht).1⟩
    · exact loop_inOrder _ _ _
  exact ⟨h1, InOrder_join _ _ h1, fun t ht => (loop_tokens _ _ _ t ht).1⟩

/-! ## Scans that do not end at the terminator -/

/-- C11: the scan does not run to completion of every buffer.  On `return 0` and on
`x = 1` the number that ends the buffer takes the terminator for a suffix, so the main
loop never finds the terminator under the cursor: it reads past it.  On a word of 100
letters followed by ` b;` the first step writes outside `yytext`, and nothing of the rest
of the buffer is scanned.  With a semicolon behind the number, `return 0;` is scanned to
the terminator. -/
theorem C11_scan_does_not_reach_terminator :
    analyze "return 0".toList 1 =
      ⟨[⟨TOKEN_RESERVED_WORD, "return".toList⟩, ⟨TOKEN_INTEGER_CONSTANT, ['0']⟩], 1,
        .fault .readPastEnd⟩ ∧
    analyze "x = 1".toList 1 =
      ⟨[⟨TOKEN_IDENTIFIER, ['x']⟩, ⟨TOKEN_ASSIGN, ['=']⟩,
        ⟨TOKEN_INTEGER_CONSTANT, ['1']⟩], 1, .fault .readPastEnd⟩ ∧
    analyze (List.replicate 100 'a' ++ " b;".toList) 1 = ⟨[], 1, .fault .yytextOverflow⟩ ∧
    analyze "return 0;".toList 1 =
      ⟨[⟨TOKEN_RESERVED_WORD, "return".toList⟩, ⟨TOKEN_INTEGER_CONSTANT, ['0']⟩,
        ⟨TOKEN_SEMICOLON, [';']⟩], 1, .finished⟩ := by
  refine ⟨by decide, by decide, by decide, by decide⟩

/-- C20: a lexeme can come from behind the buffer.  The array `1`, `2`, `3`, NUL, `x` holds
the NUL-terminated buffer `123`; the number step consumes the terminator, the scan goes on
behind it and prints the IDENTIFIER `x`, so the lexemes `123` and `x`, put one after the
other, are no subsequence of the buffer and do not lie in it one behind the other.  On the
array that ends with the terminator the same scan reads outside the array after the first
token. -/
theorem C20_lexeme_from_behind_terminator :
    cstr ['1', '2', '3', NUL, 'x'] = ['1', '2', '3'] ∧
    analyze ['1', '2', '3', NUL, 'x'] 1 =
      ⟨[⟨TOKEN_INTEGER_CONSTANT, ['1', '2', '3']⟩, ⟨TOKEN_IDENTIFIER, ['x']⟩], 1,
        .finished⟩ ∧
    ¬ (((analyze ['1', '2', '3', NUL, 'x'] 1).tokens.map Token.text).flatten).Sublist
        (cstr ['1', '2', '3', NUL, 'x']) ∧
    ¬ InOrder ((analyze ['1', '2', '3', NUL, 'x'] 1).tokens.map Token.text)
        (cstr ['1', '2', '3', NUL, 'x']) ∧
    (analyze ['1', '2', '3'] 1).status = .fault .readPastEnd := by
  refine ⟨by decide, by decide, by decide, ?_, by decide⟩
  intro h
  exact absurd (InOrder_join _ _ h) (by decide)

end Ass1j
